import Mathlib

/-!
# Verification of the Brainfuck JIT core of `pedrogao/plua`

This file gives a shallow embedding of the `src/bf` module:

* `Bf.compile` embeds `compile` from `src/bf/compile.rs` (character scan with a
  bracket stack producing `BfIR` instructions or a positional `CompileError`);
* `Bf.optimize` embeds `optimize` from `src/bf/compile.rs` (single forward pass
  folding maximal runs of identical counted instructions with 8-bit wrapping);
* `Bf.Exec` / `Bf.execF` embed the operational behaviour of the machine code
  emitted by `BfVM::generate` in `src/bf/vm.rs`: bounds-checked pointer moves,
  wrapping byte arithmetic on the tape, host I/O callbacks (`getbyte`/`putbyte`)
  and matched-bracket loop control.

Machine integers are modelled as `Nat` with explicit `% 256` where the Rust
code performs wrapping 8-bit arithmetic.  The tape is a total function
`Nat → Nat` indexed from the tape start; `MEMORY_SIZE` is the 4 MiB constant of
`vm.rs`.  The input capability is a list of events (a byte, or an I/O failure);
the output capability is a list of write outcomes (success or I/O failure)
consumed one per `putbyte` call, alongside the list of bytes emitted so far.
-/

namespace Bf

/-- IR instruction set, from `src/bf/ir.rs` (`enum BfIR`).  The `u8` repetition
counts are modelled as `Nat`. -/
inductive BfIR where
  | AddVal (n : Nat)
  | SubVal (n : Nat)
  | AddPtr (n : Nat)
  | SubPtr (n : Nat)
  | GetByte
  | PutByte
  | Jz
  | Jnz
  deriving DecidableEq, Repr

/-- Compile error kinds, from `src/bf/error.rs` (the source spells
`UnexcpectedRightBracket` with the transposed letters; we keep its name). -/
inductive CompileErrorKind where
  | UnclosedLeftBracket
  | UnexcpectedRightBracket
  deriving DecidableEq, Repr

/-- Compile error with its 1-based source position, from `src/bf/error.rs`. -/
structure CompileError where
  line : Nat
  col : Nat
  kind : CompileErrorKind
  deriving DecidableEq, Repr

/-- State of the compilation scan of `compile` in `src/bf/compile.rs`:
emitted code, bracket stack of `(instruction index, line, col)`, cursor. -/
structure CState where
  code : List BfIR
  stk : List (Nat × Nat × Nat)
  line : Nat
  col : Nat
  deriving DecidableEq, Repr

/-- One step of the character scan of `compile`.  Mirrors the `match ch` in
`src/bf/compile.rs`: `col` is incremented before dispatch, `'\n'` bumps the
line and resets `col` to 0, the six primitive operators push one instruction,
`'['` pushes the position onto the bracket stack and emits `Jz`, `']'` pops
(failing with `UnexcpectedRightBracket` when the stack is empty) and emits
`Jnz`, and every other character is ignored. -/
def compileStep (st : CState) (ch : Char) : Except CompileError CState :=
  let col := st.col + 1
  if ch = '\n' then .ok { st with line := st.line + 1, col := 0 }
  else if ch = '+' then .ok { st with code := st.code ++ [.AddVal 1], col := col }
  else if ch = '-' then .ok { st with code := st.code ++ [.SubVal 1], col := col }
  else if ch = '>' then .ok { st with code := st.code ++ [.AddPtr 1], col := col }
  else if ch = '<' then .ok { st with code := st.code ++ [.SubPtr 1], col := col }
  else if ch = ',' then .ok { st with code := st.code ++ [.GetByte], col := col }
  else if ch = '.' then .ok { st with code := st.code ++ [.PutByte], col := col }
  else if ch = '[' then
    .ok { st with code := st.code ++ [.Jz],
                  stk := (st.code.length, st.line, col) :: st.stk, col := col }
  else if ch = ']' then
    match st.stk with
    | [] => .error ⟨st.line, col, .UnexcpectedRightBracket⟩
    | _ :: s => .ok { st with code := st.code ++ [.Jnz], stk := s, col := col }
  else .ok { st with col := col }

/-- `compile` from `src/bf/compile.rs`: scan all characters starting from
line 1, column 0; afterwards a non-empty bracket stack reports
`UnclosedLeftBracket` at the position popped from the top of the stack. -/
def compile (src : String) : Except CompileError (List BfIR) := do
  let st ← src.data.foldlM compileStep ⟨[], [], 1, 0⟩
  match st.stk with
  | (_, line, col) :: _ => .error ⟨line, col, .UnclosedLeftBracket⟩
  | [] => .ok st.code

/-- Position-only reference scanner for the bracket structure of a source
text: it tracks the same `(line, col)` cursor as `compile` and the stack of
positions of currently-open `[`s (innermost first), returning the position of
the first `]` seen with no open `[`, or the final stack of still-open
brackets.  Used to characterise `compile`'s error behaviour. -/
def bracketScan : List Char → Nat → Nat → List (Nat × Nat) →
    Except (Nat × Nat) (List (Nat × Nat))
  | [], _, _, stk => .ok stk
  | ch :: rest, line, col, stk =>
    if ch = '\n' then bracketScan rest (line + 1) 0 stk
    else if ch = '[' then bracketScan rest line (col + 1) ((line, col + 1) :: stk)
    else if ch = ']' then
      match stk with
      | [] => .error (line, col + 1)
      | _ :: s => bracketScan rest line (col + 1) s
    else bracketScan rest line (col + 1) stk

/-- Bracket-depth checker over an IR sequence: starting from depth `d`, `Jz`
increments, `Jnz` decrements (returning `none` on underflow — exactly the
situation in which the `loops.pop().unwrap()` of `BfVM::generate` would
panic), everything else is transparent; returns the final depth. -/
def balCheckPartial : List BfIR → Nat → Option Nat
  | [], d => some d
  | .Jz :: rest, d => balCheckPartial rest (d + 1)
  | .Jnz :: rest, d =>
    match d with
    | 0 => none
    | e + 1 => balCheckPartial rest e
  | _ :: rest, d => balCheckPartial rest d

/-- The four counted instruction variants (`AddVal`/`SubVal`/`AddPtr`/`SubPtr`). -/
inductive CVar where
  | av
  | sv
  | ap
  | sp
  deriving DecidableEq, Repr

/-- Build a counted instruction from its variant and count. -/
def mkC : CVar → Nat → BfIR
  | .av, n => .AddVal n
  | .sv, n => .SubVal n
  | .ap, n => .AddPtr n
  | .sp, n => .SubPtr n

/-- Variant and count of a counted instruction; `none` on
`GetByte`/`PutByte`/`Jz`/`Jnz`. -/
def variantOf : BfIR → Option (CVar × Nat)
  | .AddVal n => some (.av, n)
  | .SubVal n => some (.sv, n)
  | .AddPtr n => some (.ap, n)
  | .SubPtr n => some (.sp, n)
  | .GetByte => none
  | .PutByte => none
  | .Jz => none
  | .Jnz => none

/-- Variant of the first instruction of a sequence, if counted. -/
def headVar (l : List BfIR) : Option CVar :=
  l.head?.bind fun c => (variantOf c).map Prod.fst

/-- Variant of the last instruction of a sequence, if counted. -/
def lastVar (l : List BfIR) : Option CVar :=
  l.getLast?.bind fun c => (variantOf c).map Prod.fst

/-- Whether two instructions are counted instructions of the same variant
(i.e. whether the optimizer would fold them into one run). -/
def sameVar (a b : BfIR) : Bool :=
  match variantOf a, variantOf b with
  | some (v, _), some (w, _) => v = w
  | _, _ => false

/-- No two adjacent instructions share a counted variant (the shape of the
optimizer's output). -/
def noAdj : List BfIR → Bool
  | a :: b :: rest => !sameVar a b && noAdj (b :: rest)
  | _ => true

/-- Worker of the optimizer pass.  The accumulator holds the variant and the
wrapping 8-bit sum of the counted run currently being folded, mirroring the
`_fold_ir!` macro of `optimize` in `src/bf/compile.rs`: a run is extended with
`wrapping_add` (`(x + n) % 256`), ended by an instruction of any other shape
(which flushes the folded instruction), and non-counted instructions are
copied through unchanged. -/
def optGo : List BfIR → Option (CVar × Nat) → List BfIR
  | [], none => []
  | [], some (v, x) => [mkC v x]
  | c :: cs, none =>
    match variantOf c with
    | some (v, n) => optGo cs (some (v, n))
    | none => c :: optGo cs none
  | c :: cs, some (v, x) =>
    match variantOf c with
    | some (w, n) =>
      if w = v then optGo cs (some (v, (x + n) % 256))
      else mkC v x :: optGo cs (some (w, n))
    | none => mkC v x :: c :: optGo cs none

/-- `optimize` from `src/bf/compile.rs`, as the pure function the in-place
read/write-cursor pass computes: maximal runs of identical counted variants
are folded into one instruction with the 8-bit wrapping sum of the counts,
everything else is copied through in order. -/
def optimize (code : List BfIR) : List BfIR :=
  optGo code none

/-- No counted run spans the boundary between `xs` and `ys` (the last
instruction of `xs` and the first of `ys` are not of one counted variant). -/
def noSpan (xs ys : List BfIR) : Bool :=
  match xs.getLast?, ys.head? with
  | some a, some b => !sameVar a b
  | _, _ => true

/-- Tape size, from `const MEMORY_SIZE` in `src/bf/vm.rs` (4 MiB). -/
def MEMORY_SIZE : Nat := 4 * 1024 * 1024

/-- One event of the input capability: a byte delivered by `read`, or an
underlying I/O failure (`Err(e)`).  An exhausted list models persistent
end-of-input (`Ok(0)`). -/
inductive InEv where
  | byte (n : Nat)
  | fail
  deriving DecidableEq, Repr

/-- Outcome of one `write_all` call of the output capability (`putbyte` in
`src/bf/vm.rs`): the write succeeds (`Ok(())`), or fails with an I/O error
(`Err(e)`).  An exhausted list models a writer that never fails again. -/
inductive OutEv where
  | ok
  | fail
  deriving DecidableEq, Repr

/-- Machine state during a run of the generated code: data pointer (as an
offset from the tape start), tape contents, remaining input events, remaining
output write outcomes, bytes written to the output capability so far. -/
structure St where
  ptr : Nat
  tape : Nat → Nat
  input : List InEv
  outcap : List OutEv
  output : List Nat

/-- Byte at the data pointer. -/
def getCell (st : St) : Nat := st.tape st.ptr

/-- Overwrite the byte at the data pointer. -/
def setCell (st : St) (v : Nat) : St :=
  { st with tape := fun i => if i = st.ptr then v else st.tape i }

/-- Initial state of `BfVM::run`: pointer at the tape start, zero-initialised
tape, given input and output capabilities, empty output. -/
def initSt (inp : List InEv) (oc : List OutEv) : St :=
  { ptr := 0, tape := fun _ => 0, input := inp, outcap := oc, output := [] }

/-- Result of a run: normal completion, the `PointerOverflow` fault raised by
the overflow trampoline (only the output written so far is observable — the
faulting pointer register is discarded), or an I/O error returned by a host
callback (the state, tape included, is untouched by the failing callback). -/
inductive Res where
  | ok (st : St)
  | overflow (out : List Nat)
  | ioError (st : St)

/-- Split an instruction sequence at the `Jnz` matching an already-open `Jz`,
`d` counting the extra nesting levels still to close: returns the loop body
(before the matching `Jnz`) and the continuation (after it). -/
def splitMatch : List BfIR → Nat → Option (List BfIR × List BfIR)
  | [], _ => none
  | .Jnz :: rest, 0 => some ([], rest)
  | .Jnz :: rest, d + 1 => (splitMatch rest d).map fun p => (.Jnz :: p.1, p.2)
  | .Jz :: rest, d => (splitMatch rest (d + 1)).map fun p => (.Jz :: p.1, p.2)
  | i :: rest, d => (splitMatch rest d).map fun p => (i :: p.1, p.2)

/-- Fuel-indexed executable interpreter of the IR, mirroring instruction by
instruction the machine code emitted by `BfVM::generate` in `src/bf/vm.rs`:

* `AddPtr x` / `SubPtr x`: move the pointer and branch to the overflow
  trampoline when the result leaves `[tape start, tape end)` (the only place
  bounds are checked);
* `AddVal x` / `SubVal x`: 8-bit wrapping arithmetic on the byte at the
  pointer, unchecked;
* `GetByte`: the `getbyte` callback — end-of-input succeeds leaving the cell
  unchanged, a delivered byte is stored at the pointer, an I/O failure aborts
  the run via the `io_error` exit;
* `PutByte`: the `putbyte` callback — a failing `write_all` aborts the run via
  the `io_error` exit leaving the state untouched, a successful one appends the
  byte at the pointer to the output;
* `Jz`: test the byte at the pointer and either skip past the matching `Jnz`
  or run the loop body and retest (the dynamic-label pair of the generated
  code); a `Jnz` with no matching open `Jz` has no semantics (`none`), as
  generation would have panicked on such IR.

`none` is returned when fuel runs out (or on IR the generator rejects). -/
def execF : Nat → List BfIR → St → Option Res
  | 0, _, _ => none
  | _ + 1, [], st => some (.ok st)
  | f + 1, ins :: rest, st =>
    match ins with
    | .AddPtr x =>
      if st.ptr + x < MEMORY_SIZE then execF f rest { st with ptr := st.ptr + x }
      else some (.overflow st.output)
    | .SubPtr x =>
      if x ≤ st.ptr then execF f rest { st with ptr := st.ptr - x }
      else some (.overflow st.output)
    | .AddVal x => execF f rest (setCell st ((getCell st + x) % 256))
    | .SubVal x => execF f rest (setCell st ((getCell st + (256 - x % 256)) % 256))
    | .GetByte =>
      match st.input with
      | [] => execF f rest st
      | .byte b :: is => execF f rest (setCell { st with input := is } (b % 256))
      | .fail :: _ => some (.ioError st)
    | .PutByte =>
      if st.outcap.head? = some .fail then some (.ioError st)
      else execF f rest { st with outcap := st.outcap.tail,
                                  output := st.output ++ [getCell st] }
    | .Jz =>
      match splitMatch rest 0 with
      | none => none
      | some (body, after) =>
        if getCell st = 0 then execF f after st
        else execF f (body ++ .Jz :: rest) st
    | .Jnz => none

/-- Big-step run relation of the generated code, the fuel-free counterpart of
`execF`: `Exec code st r` holds exactly when running `code` from state `st`
terminates with result `r`.  Diverging runs satisfy no instance. -/
inductive Exec : List BfIR → St → Res → Prop where
  | nil (st : St) : Exec [] st (.ok st)
  | addPtrOk {x : Nat} {rest : List BfIR} {st : St} {r : Res}
      (h : st.ptr + x < MEMORY_SIZE)
      (hr : Exec rest { st with ptr := st.ptr + x } r) :
      Exec (.AddPtr x :: rest) st r
  | addPtrOver {x : Nat} {rest : List BfIR} {st : St}
      (h : MEMORY_SIZE ≤ st.ptr + x) :
      Exec (.AddPtr x :: rest) st (.overflow st.output)
  | subPtrOk {x : Nat} {rest : List BfIR} {st : St} {r : Res}
      (h : x ≤ st.ptr)
      (hr : Exec rest { st with ptr := st.ptr - x } r) :
      Exec (.SubPtr x :: rest) st r
  | subPtrOver {x : Nat} {rest : List BfIR} {st : St}
      (h : st.ptr < x) :
      Exec (.SubPtr x :: rest) st (.overflow st.output)
  | addVal {x : Nat} {rest : List BfIR} {st : St} {r : Res}
      (hr : Exec rest (setCell st ((getCell st + x) % 256)) r) :
      Exec (.AddVal x :: rest) st r
  | subVal {x : Nat} {rest : List BfIR} {st : St} {r : Res}
      (hr : Exec rest (setCell st ((getCell st + (256 - x % 256)) % 256)) r) :
      Exec (.SubVal x :: rest) st r
  | getEof {rest : List BfIR} {st : St} {r : Res}
      (h : st.input = []) (hr : Exec rest st r) :
      Exec (.GetByte :: rest) st r
  | getOne {b : Nat} {is : List InEv} {rest : List BfIR} {st : St} {r : Res}
      (h : st.input = .byte b :: is)
      (hr : Exec rest (setCell { st with input := is } (b % 256)) r) :
      Exec (.GetByte :: rest) st r
  | getErr {is : List InEv} {rest : List BfIR} {st : St}
      (h : st.input = .fail :: is) :
      Exec (.GetByte :: rest) st (.ioError st)
  | putB {rest : List BfIR} {st : St} {r : Res}
      (h : st.outcap.head? ≠ some .fail)
      (hr : Exec rest { st with outcap := st.outcap.tail,
                                output := st.output ++ [getCell st] } r) :
      Exec (.PutByte :: rest) st r
  | putErr {rest : List BfIR} {st : St}
      (h : st.outcap.head? = some .fail) :
      Exec (.PutByte :: rest) st (.ioError st)
  | jzSkip {rest body after : List BfIR} {st : St} {r : Res}
      (hs : splitMatch rest 0 = some (body, after))
      (hz : getCell st = 0) (hr : Exec after st r) :
      Exec (.Jz :: rest) st r
  | jzLoop {rest body after : List BfIR} {st : St} {r : Res}
      (hs : splitMatch rest 0 = some (body, after))
      (hz : getCell st ≠ 0) (hr : Exec (body ++ .Jz :: rest) st r) :
      Exec (.Jz :: rest) st r

/-- Results of the bounds-instrumented interpreter: those of `execF` plus a
marker for a tape access outside `[tape start, tape end)`. -/
inductive CRes where
  | ok (st : St)
  | overflow (out : List Nat)
  | ioError (st : St)
  | memFault (st : St)

/-- Embed the results of the plain interpreter into the instrumented ones. -/
def embedRes : Res → CRes
  | .ok st => .ok st
  | .overflow out => .overflow out
  | .ioError st => .ioError st

/-- Bounds-instrumented interpreter: identical to `execF`, except that every
read or write of the byte at the data pointer (the accesses the generated
code performs with no bounds check) first checks that the pointer is inside
the tape, and reports `memFault` otherwise.  Pointer-movement instructions
perform no tape access. -/
def execFC : Nat → List BfIR → St → Option CRes
  | 0, _, _ => none
  | _ + 1, [], st => some (.ok st)
  | f + 1, ins :: rest, st =>
    match ins with
    | .AddPtr x =>
      if st.ptr + x < MEMORY_SIZE then execFC f rest { st with ptr := st.ptr + x }
      else some (.overflow st.output)
    | .SubPtr x =>
      if x ≤ st.ptr then execFC f rest { st with ptr := st.ptr - x }
      else some (.overflow st.output)
    | .AddVal x =>
      if st.ptr < MEMORY_SIZE then execFC f rest (setCell st ((getCell st + x) % 256))
      else some (.memFault st)
    | .SubVal x =>
      if st.ptr < MEMORY_SIZE then
        execFC f rest (setCell st ((getCell st + (256 - x % 256)) % 256))
      else some (.memFault st)
    | .GetByte =>
      match st.input with
      | [] => execFC f rest st
      | .byte b :: is =>
        if st.ptr < MEMORY_SIZE then
          execFC f rest (setCell { st with input := is } (b % 256))
        else some (.memFault st)
      | .fail :: _ => some (.ioError st)
    | .PutByte =>
      if st.ptr < MEMORY_SIZE then
        if st.outcap.head? = some .fail then some (.ioError st)
        else execFC f rest { st with outcap := st.outcap.tail,
                                     output := st.output ++ [getCell st] }
      else some (.memFault st)
    | .Jz =>
      match splitMatch rest 0 with
      | none => none
      | some (body, after) =>
        if st.ptr < MEMORY_SIZE then
          if getCell st = 0 then execFC f after st
          else execFC f (body ++ .Jz :: rest) st
        else some (.memFault st)
    | .Jnz => none

/-- Variant and count of a pointer-movement instruction (`AddPtr`/`SubPtr`). -/
def ptrVarOf : BfIR → Option (CVar × Nat)
  | .AddPtr n => some (.ap, n)
  | .SubPtr n => some (.sp, n)
  | _ => none

/-- Scanner checking that every maximal run of identical pointer-movement
instructions has counts summing to less than 256, so that the optimizer's
8-bit wrapping fold preserves the run's total movement.  The accumulator is
the variant and the (unwrapped) sum of the pointer run in progress. -/
def ptrAux : List BfIR → Option (CVar × Nat) → Bool
  | [], none => true
  | [], some (_, s) => decide (s < 256)
  | c :: cs, none =>
    match ptrVarOf c with
    | some (w, n) => ptrAux cs (some (w, n))
    | none => ptrAux cs none
  | c :: cs, some (v, s) =>
    match ptrVarOf c with
    | some (w, n) =>
      if w = v then ptrAux cs (some (v, s + n))
      else decide (s < 256) && ptrAux cs (some (w, n))
    | none => decide (s < 256) && ptrAux cs none

/-- Every maximal run of identical pointer-movement instructions moves the
pointer by less than 256 in total. -/
def ptrRunsOK (code : List BfIR) : Bool :=
  ptrAux code none

/-- Every counted instruction carries count 1 (the shape of `compile`'s
output, which emits only unit instructions). -/
def unitCounted (code : List BfIR) : Bool :=
  code.all fun c =>
    match variantOf c with
    | some (_, n) => decide (n = 1)
    | none => true

/-- Length of the initial run of variant-`v` counted instructions of a
sequence, and the remainder after it. -/
def takeRun (v : CVar) : List BfIR → Nat × List BfIR
  | [] => (0, [])
  | c :: cs =>
    match variantOf c with
    | some (w, _) =>
      if w = v then ((takeRun v cs).1 + 1, (takeRun v cs).2)
      else (0, c :: cs)
    | none => (0, c :: cs)

/-- Effect of the pending folded instruction of `optGo`'s accumulator on a
state: `none` when executing it would fault (pointer out of bounds). -/
def accApply : Option (CVar × Nat) → St → Option St
  | none, st => some st
  | some (.ap, s), st =>
    if st.ptr + s < MEMORY_SIZE then some { st with ptr := st.ptr + s } else none
  | some (.sp, s), st =>
    if s ≤ st.ptr then some { st with ptr := st.ptr - s } else none
  | some (.av, s), st => some (setCell st ((getCell st + s) % 256))
  | some (.sv, s), st => some (setCell st ((getCell st + (256 - s % 256)) % 256))

/-- Projection of `optGo`'s accumulator to the pointer-run accumulator of
`ptrAux`. -/
def accPtr : Option (CVar × Nat) → Option (CVar × Nat)
  | some (.ap, s) => some (.ap, s)
  | some (.sp, s) => some (.sp, s)
  | _ => none

/-- Whether a counted variant is a pointer movement. -/
def cvarIsPtr : CVar → Bool
  | .ap => true
  | .sp => true
  | .av => false
  | .sv => false

/-- The test program of `src/bf/compile.rs` (`test_compile`). -/
def srcC9 : String := "+[,.]"

/-- Two unmatched left brackets; the reported position must be the second
(innermost) one. -/
def srcWitUnclosed : String := "[["

/-- A small terminating loop program, used to instantiate the optimization
transparency theorem. -/
def srcWitLoop : String := "+[-]."

/-- IR of `srcWitLoop`. -/
def codeWitLoop : List BfIR := [.AddVal 1, .Jz, .SubVal 1, .Jnz, .PutByte]

/-- A run of 256 `<` characters: the smallest program class on which the
optimizer changes observable behaviour (256 unit `SubPtr`s fault at the tape
start, their fold `SubPtr 0` is a no-op). -/
def cexSrc : String := String.mk (List.replicate 256 '<')

/-- IR of `cexSrc`. -/
def cexCode : List BfIR := List.replicate 256 (.SubPtr 1)

end Bf

namespace Bf
/-! ## Correspondence between `compile` and the reference bracket scanner -/

theorem step_corr (st : CState) (ch : Char) (rest : List Char) :
    (∃ st₁, compileStep st ch = .ok st₁ ∧
       bracketScan (ch :: rest) st.line st.col (st.stk.map Prod.snd) =
         bracketScan rest st₁.line st₁.col (st₁.stk.map Prod.snd)) ∨
    (compileStep st ch = .error ⟨st.line, st.col + 1, .UnexcpectedRightBracket⟩ ∧
       bracketScan (ch :: rest) st.line st.col (st.stk.map Prod.snd) =
         .error (st.line, st.col + 1)) := by
  by_cases h1 : ch = '\n'
  · refine Or.inl ⟨{ st with line := st.line + 1, col := 0 }, ?_, ?_⟩
    · simp [compileStep, h1]
    · simp [bracketScan, h1]
  by_cases h2 : ch = '+'
  · refine Or.inl ⟨{ st with code := st.code ++ [.AddVal 1], col := st.col + 1 }, ?_, ?_⟩
    · simp [compileStep, h1, h2]
    · simp [bracketScan, h1, h2]
  by_cases h3 : ch = '-'
  · refine Or.inl ⟨{ st with code := st.code ++ [.SubVal 1], col := st.col + 1 }, ?_, ?_⟩
    · simp [compileStep, h1, h2, h3]
    · simp [bracketScan, h1, h2, h3]
  by_cases h4 : ch = '>'
  · refine Or.inl ⟨{ st with code := st.code ++ [.AddPtr 1], col := st.col + 1 }, ?_, ?_⟩
    · simp [compileStep, h1, h2, h3, h4]
    · simp [bracketScan, h1, h2, h3, h4]
  by_cases h5 : ch = '<'
  · refine Or.inl ⟨{ st with code := st.code ++ [.SubPtr 1], col := st.col + 1 }, ?_, ?_⟩
    · simp [compileStep, h1, h2, h3, h4, h5]
    · simp [bracketScan, h1, h2, h3, h4, h5]
  by_cases h6 : ch = ','
  · refine Or.inl ⟨{ st with code := st.code ++ [.GetByte], col := st.col + 1 }, ?_, ?_⟩
    · simp [compileStep, h1, h2, h3, h4, h5, h6]
    · simp [bracketScan, h1, h2, h3, h4, h5, h6]
  by_cases h7 : ch = '.'
  · refine Or.inl ⟨{ st with code := st.code ++ [.PutByte], col := st.col + 1 }, ?_, ?_⟩
    · simp [compileStep, h1, h2, h3, h4, h5, h6, h7]
    · simp [bracketScan, h1, h2, h3, h4, h5, h6, h7]
  by_cases h8 : ch = '['
  · refine Or.inl ⟨{ st with code := st.code ++ [.Jz], stk := (st.code.length, st.line, st.col + 1) :: st.stk, col := st.col + 1 }, ?_, ?_⟩
    · simp [compileStep, h1, h2, h3, h4, h5, h6, h7, h8]
    · simp [bracketScan, h1, h2, h3, h4, h5, h6, h7, h8]
  by_cases h9 : ch = ']'
  · cases hstk : st.stk with
    | nil =>
      refine Or.inr ⟨?_, ?_⟩
      · simp [compileStep, h1, h2, h3, h4, h5, h6, h7, h8, h9, hstk]
      · simp [bracketScan, h1, h2, h3, h4, h5, h6, h7, h8, h9, hstk]
    | cons t s =>
      refine Or.inl ⟨{ st with code := st.code ++ [.Jnz], stk := s, col := st.col + 1 }, ?_, ?_⟩
      · simp [compileStep, h1, h2, h3, h4, h5, h6, h7, h8, h9, hstk]
      · simp [bracketScan, h1, h2, h3, h4, h5, h6, h7, h8, h9, hstk]
  · refine Or.inl ⟨{ st with col := st.col + 1 }, ?_, ?_⟩
    · simp [compileStep, h1, h2, h3, h4, h5, h6, h7, h8, h9]
    · simp [bracketScan, h1, h2, h3, h4, h5, h6, h7, h8, h9]

theorem scan_agrees (chs : List Char) : ∀ st : CState,
    (∀ l c, bracketScan chs st.line st.col (st.stk.map Prod.snd) = .error (l, c) →
      chs.foldlM compileStep st = .error ⟨l, c, .UnexcpectedRightBracket⟩) ∧
    (∀ ps, bracketScan chs st.line st.col (st.stk.map Prod.snd) = .ok ps →
      ∃ st', chs.foldlM compileStep st = .ok st' ∧ st'.stk.map Prod.snd = ps) := by
  induction chs with
  | nil =>
    intro st
    constructor
    · intro l c h
      simp [bracketScan] at h
    · intro ps h
      simp [bracketScan] at h
      exact ⟨st, rfl, h ▸ rfl⟩
  | cons ch rest ih =>
    intro st
    rcases step_corr st ch rest with ⟨st₁, hstep, hscan⟩ | ⟨hstep, hscan⟩
    · constructor
      · intro l c h
        rw [hscan] at h
        have hrec := (ih st₁).1 l c h
        simpa [List.foldlM, hstep, Bind.bind, Except.bind] using hrec
      · intro ps h
        rw [hscan] at h
        obtain ⟨st', hfold, hmap⟩ := (ih st₁).2 ps h
        refine ⟨st', ?_, hmap⟩
        simpa [List.foldlM, hstep, Bind.bind, Except.bind] using hfold
    · constructor
      · intro l c h
        rw [hscan] at h
        simp only [Except.error.injEq, Prod.mk.injEq] at h
        obtain ⟨rfl, rfl⟩ := h
        simp [List.foldlM, hstep, Bind.bind, Except.bind]
      · intro ps h
        rw [hscan] at h
        simp at h

/-- C9: compiling `"+[,.]"` yields exactly
`[AddVal 1, Jz, GetByte, PutByte, Jnz]`; every character other than the eight
operators emits nothing. -/
theorem compile_plus_comma_dot :
    compile srcC9 = .ok [.AddVal 1, .Jz, .GetByte, .PutByte, .Jnz] := rfl

/-- C4: when the scan ends with open brackets (the reference scanner returns a
non-empty stack of still-open `[` positions, innermost first), `compile` fails
with `UnclosedLeftBracket` at the position of the innermost (most recently
opened) still-unmatched `[` — the top of the bracket stack, not necessarily
the first unmatched `[` of the source. -/
theorem compile_unclosed_innermost (src : String) (l c : Nat) (ps : List (Nat × Nat))
    (h : bracketScan src.data 1 0 [] = .ok ((l, c) :: ps)) :
    compile src = .error ⟨l, c, .UnclosedLeftBracket⟩ := by
  obtain ⟨st', hfold, hmap⟩ := (scan_agrees src.data ⟨[], [], 1, 0⟩).2 ((l, c) :: ps) h
  cases hstk : st'.stk with
  | nil =>
    rw [hstk] at hmap
    simp at hmap
  | cons t ts =>
    obtain ⟨p, l', c'⟩ := t
    rw [hstk] at hmap
    simp only [List.map_cons, List.cons.injEq, Prod.mk.injEq] at hmap
    obtain ⟨⟨rfl, rfl⟩, -⟩ := hmap
    simp [compile, hfold, Bind.bind, Except.bind, hstk]

/-- Witness for C4 on the source `"[["`: the innermost open bracket is the
second one, at line 1 column 2 — not the first unmatched `[` (column 1). -/
theorem compile_unclosed_innermost_witness :
    bracketScan srcWitUnclosed.data 1 0 [] = .ok [(1, 2), (1, 1)] ∧
      compile srcWitUnclosed = .error ⟨1, 2, .UnclosedLeftBracket⟩ :=
  ⟨rfl, compile_unclosed_innermost srcWitUnclosed 1 2 [(1, 1)] rfl⟩

/-- C5: `compile` fails with `UnexcpectedRightBracket` at the 1-based
`(line, col)` cursor position exactly when the left-to-right scan meets a `]`
while no `[` is open; the scan aborts there (no IR sequence is returned). -/
theorem compile_unexpected_right_iff (src : String) (l c : Nat) :
    compile src = .error ⟨l, c, .UnexcpectedRightBracket⟩ ↔
      bracketScan src.data 1 0 [] = .error (l, c) := by
  constructor
  · intro h
    cases hb : bracketScan src.data 1 0 [] with
    | error lc =>
      obtain ⟨l', c'⟩ := lc
      have hfold := (scan_agrees src.data ⟨[], [], 1, 0⟩).1 l' c' hb
      have hc : compile src = .error ⟨l', c', .UnexcpectedRightBracket⟩ := by
        simp [compile, hfold, Bind.bind, Except.bind]
      rw [hc] at h
      injection h with h
      injection h with e1 e2 e3
      subst e1
      subst e2
      rfl
    | ok ps =>
      obtain ⟨st', hfold, hmap⟩ := (scan_agrees src.data ⟨[], [], 1, 0⟩).2 ps hb
      cases hstk : st'.stk with
      | nil =>
        have hc : compile src = .ok st'.code := by
          simp [compile, hfold, Bind.bind, Except.bind, hstk]
        rw [hc] at h
        exact Except.noConfusion h
      | cons t ts =>
        obtain ⟨p, l', c'⟩ := t
        have hc : compile src = .error ⟨l', c', .UnclosedLeftBracket⟩ := by
          simp [compile, hfold, Bind.bind, Except.bind, hstk]
        rw [hc] at h
        injection h with h
        simp at h
  · intro h
    have hfold := (scan_agrees src.data ⟨[], [], 1, 0⟩).1 l c h
    simp [compile, hfold, Bind.bind, Except.bind]

/-! ## Compile-time invariants: balance and unit counts -/

theorem balCheckPartial_append (xs ys : List BfIR) : ∀ d,
    balCheckPartial (xs ++ ys) d =
      (balCheckPartial xs d).bind fun e => balCheckPartial ys e := by
  induction xs with
  | nil => intro d; rfl
  | cons c cs ih =>
    intro d
    cases c with
    | Jz => simpa [balCheckPartial] using ih (d + 1)
    | Jnz =>
      cases d with
      | zero => simp [balCheckPartial]
      | succ e => simpa [balCheckPartial] using ih e
    | AddVal n => simpa [balCheckPartial] using ih d
    | SubVal n => simpa [balCheckPartial] using ih d
    | AddPtr n => simpa [balCheckPartial] using ih d
    | SubPtr n => simpa [balCheckPartial] using ih d
    | GetByte => simpa [balCheckPartial] using ih d
    | PutByte => simpa [balCheckPartial] using ih d

theorem unitCounted_append (xs ys : List BfIR) :
    unitCounted (xs ++ ys) = (unitCounted xs && unitCounted ys) := by
  simp [unitCounted, List.all_append]

theorem compileStep_shape (st : CState) (ch : Char) (st₁ : CState)
    (h : compileStep st ch = .ok st₁) :
    (st₁.code = st.code ∧ st₁.stk = st.stk) ∨
    (∃ i, st₁.code = st.code ++ [i] ∧ st₁.stk = st.stk ∧ i ≠ .Jz ∧ i ≠ .Jnz ∧
      unitCounted [i] = true) ∨
    (st₁.code = st.code ++ [.Jz] ∧
      st₁.stk = (st.code.length, st.line, st.col + 1) :: st.stk) ∨
    (∃ t, st₁.code = st.code ++ [.Jnz] ∧ st.stk = t :: st₁.stk) := by
  by_cases h1 : ch = '\n'
  · simp [compileStep, h1] at h
    exact Or.inl ⟨by rw [← h], by rw [← h]⟩
  by_cases h2 : ch = '+'
  · simp [compileStep, h1, h2] at h
    exact Or.inr (Or.inl ⟨.AddVal 1, by rw [← h], by rw [← h], by simp, by simp, by decide⟩)
  by_cases h3 : ch = '-'
  · simp [compileStep, h1, h2, h3] at h
    exact Or.inr (Or.inl ⟨.SubVal 1, by rw [← h], by rw [← h], by simp, by simp, by decide⟩)
  by_cases h4 : ch = '>'
  · simp [compileStep, h1, h2, h3, h4] at h
    exact Or.inr (Or.inl ⟨.AddPtr 1, by rw [← h], by rw [← h], by simp, by simp, by decide⟩)
  by_cases h5 : ch = '<'
  · simp [compileStep, h1, h2, h3, h4, h5] at h
    exact Or.inr (Or.inl ⟨.SubPtr 1, by rw [← h], by rw [← h], by simp, by simp, by decide⟩)
  by_cases h6 : ch = ','
  · simp [compileStep, h1, h2, h3, h4, h5, h6] at h
    exact Or.inr (Or.inl ⟨.GetByte, by rw [← h], by rw [← h], by simp, by simp, by decide⟩)
  by_cases h7 : ch = '.'
  · simp [compileStep, h1, h2, h3, h4, h5, h6, h7] at h
    exact Or.inr (Or.inl ⟨.PutByte, by rw [← h], by rw [← h], by simp, by simp, by decide⟩)
  by_cases h8 : ch = '['
  · simp [compileStep, h1, h2, h3, h4, h5, h6, h7, h8] at h
    exact Or.inr (Or.inr (Or.inl ⟨by rw [← h], by rw [← h]⟩))
  by_cases h9 : ch = ']'
  · cases hstk : st.stk with
    | nil => simp [compileStep, h1, h2, h3, h4, h5, h6, h7, h8, h9, hstk] at h
    | cons t s =>
      simp [compileStep, h1, h2, h3, h4, h5, h6, h7, h8, h9, hstk] at h
      refine Or.inr (Or.inr (Or.inr ⟨t, by rw [← h], ?_⟩))
      rw [← h]
  · simp [compileStep, h1, h2, h3, h4, h5, h6, h7, h8, h9] at h
    exact Or.inl ⟨by rw [← h], by rw [← h]⟩

theorem foldl_preserves (chs : List Char) : ∀ st st' : CState,
    chs.foldlM compileStep st = .ok st' →
    (balCheckPartial st.code 0 = some st.stk.length →
      balCheckPartial st'.code 0 = some st'.stk.length) ∧
    (unitCounted st.code = true → unitCounted st'.code = true) := by
  induction chs with
  | nil =>
    intro st st' h
    injection h with h
    subst h
    exact ⟨id, id⟩
  | cons ch rest ih =>
    intro st st' h
    cases hstep : compileStep st ch with
    | error e =>
      rw [List.foldlM_cons, hstep] at h
      exact Except.noConfusion h
    | ok st₁ =>
      rw [List.foldlM_cons, hstep] at h
      replace h : rest.foldlM compileStep st₁ = .ok st' := h
      have ihs := ih st₁ st' h
      rcases compileStep_shape st ch st₁ hstep with
        ⟨hc, hk⟩ | ⟨i, hc, hk, hjz, hjnz, hu⟩ | ⟨hc, hk⟩ | ⟨t, hc, hk⟩
      · constructor
        · intro hb
          exact ihs.1 (by rw [hc, hk]; exact hb)
        · intro hu0
          exact ihs.2 (by rw [hc]; exact hu0)
      · constructor
        · intro hb
          refine ihs.1 ?_
          rw [hc, balCheckPartial_append, hb, hk]
          cases i with
          | Jz => exact absurd rfl hjz
          | Jnz => exact absurd rfl hjnz
          | AddVal n => rfl
          | SubVal n => rfl
          | AddPtr n => rfl
          | SubPtr n => rfl
          | GetByte => rfl
          | PutByte => rfl
        · intro hu0
          refine ihs.2 ?_
          rw [hc, unitCounted_append, hu0, hu]
          rfl
      · constructor
        · intro hb
          refine ihs.1 ?_
          rw [hc, balCheckPartial_append, hb, hk]
          simp [balCheckPartial]
        · intro hu0
          refine ihs.2 ?_
          rw [hc, unitCounted_append, hu0]
          rfl
      · constructor
        · intro hb
          refine ihs.1 ?_
          rw [hc, balCheckPartial_append, hb, hk]
          simp [balCheckPartial]
        · intro hu0
          refine ihs.2 ?_
          rw [hc, unitCounted_append, hu0]
          rfl

theorem compile_ok_inv (src : String) (code : List BfIR) (h : compile src = .ok code) :
    balCheckPartial code 0 = some 0 ∧ unitCounted code = true := by
  unfold compile at h
  cases hfold : src.data.foldlM compileStep ⟨[], [], 1, 0⟩ with
  | error e =>
    rw [hfold] at h
    exact Except.noConfusion h
  | ok st' =>
    rw [hfold] at h
    replace h : (match st'.stk with
      | (_, line, col) :: _ =>
          (.error ⟨line, col, .UnclosedLeftBracket⟩ : Except CompileError (List BfIR))
      | [] => .ok st'.code) = .ok code := h
    cases hstk : st'.stk with
    | cons t ts =>
      rw [hstk] at h
      obtain ⟨p, l', c'⟩ := t
      exact Except.noConfusion h
    | nil =>
      rw [hstk] at h
      injection h with h
      subst h
      have hp := foldl_preserves src.data ⟨[], [], 1, 0⟩ st' hfold
      have hb := hp.1 rfl
      rw [hstk] at hb
      exact ⟨hb, hp.2 rfl⟩

/-- C3: the `Jz`/`Jnz` instructions of every successfully compiled IR sequence
form a balanced well-nested bracket structure (depth never underflows and ends
at 0), so the label-stack pop of the code generator at each `Jnz` never
underflows on compiler-produced IR. -/
theorem compile_balanced (src : String) (code : List BfIR)
    (h : compile src = .ok code) : balCheckPartial code 0 = some 0 :=
  (compile_ok_inv src code h).1

/-- Witness for C3 on the program `"+[,.]"`. -/
theorem compile_balanced_witness :
    compile srcC9 = .ok [.AddVal 1, .Jz, .GetByte, .PutByte, .Jnz] ∧
      balCheckPartial [.AddVal 1, .Jz, .GetByte, .PutByte, .Jnz] 0 = some 0 :=
  ⟨rfl, compile_balanced srcC9 [.AddVal 1, .Jz, .GetByte, .PutByte, .Jnz] rfl⟩

/-! ## Optimizer: basic shape lemmas -/

theorem variantOf_mkC (v : CVar) (n : Nat) : variantOf (mkC v n) = some (v, n) := by
  cases v <;> rfl

theorem mkC_variantOf {c : BfIR} {v : CVar} {n : Nat} (h : variantOf c = some (v, n)) :
    mkC v n = c := by
  cases c <;> simp only [variantOf, Option.some.injEq, Prod.mk.injEq, reduceCtorEq] at h <;>
    obtain ⟨rfl, rfl⟩ := h <;> rfl

theorem sameVar_none_left {a b : BfIR} (h : variantOf a = none) : sameVar a b = false := by
  simp [sameVar, h]

theorem sameVar_none_right {a b : BfIR} (h : variantOf b = none) : sameVar a b = false := by
  cases hv : variantOf a <;> simp [sameVar, h, hv]

theorem sameVar_some {a b : BfIR} {v w : CVar} {m n : Nat}
    (ha : variantOf a = some (v, m)) (hb : variantOf b = some (w, n)) :
    sameVar a b = decide (v = w) := by
  simp [sameVar, ha, hb]

theorem noAdj_cons {a : BfIR} {l : List BfIR}
    (h1 : ∀ b, l.head? = some b → sameVar a b = false)
    (h2 : noAdj l = true) : noAdj (a :: l) = true := by
  cases l with
  | nil => rfl
  | cons b bs => simp [noAdj, h1 b rfl, h2]

theorem noAdj_tail {a : BfIR} {l : List BfIR} (h : noAdj (a :: l) = true) :
    noAdj l = true := by
  cases l with
  | nil => rfl
  | cons b bs =>
    simp [noAdj] at h
    exact h.2

theorem noAdj_head_pair {a b : BfIR} {l : List BfIR} (h : noAdj (a :: b :: l) = true) :
    sameVar a b = false := by
  simp [noAdj] at h
  exact h.1

theorem optGo_flush (cs : List BfIR) (v : CVar) (x : Nat) (h : headVar cs ≠ some v) :
    optGo cs (some (v, x)) = mkC v x :: optGo cs none := by
  cases cs with
  | nil => rfl
  | cons c cs =>
    cases hv : variantOf c with
    | none => simp [optGo, hv]
    | some p =>
      obtain ⟨w, n⟩ := p
      have hw : ¬w = v := by
        intro he
        exact h (by simp [headVar, hv, he])
      simp [optGo, hv, hw]

theorem optGo_some_head (l : List BfIR) (v : CVar) : ∀ x : Nat,
    ∃ n tl, optGo l (some (v, x)) = mkC v n :: tl := by
  induction l with
  | nil => exact fun x => ⟨x, [], rfl⟩
  | cons c cs ih =>
    intro x
    cases hv : variantOf c with
    | none => exact ⟨x, c :: optGo cs none, by simp [optGo, hv]⟩
    | some p =>
      obtain ⟨w, n⟩ := p
      by_cases hw : w = v
      · subst hw
        obtain ⟨m, tl, htl⟩ := ih ((x + n) % 256)
        refine ⟨m, tl, ?_⟩
        rw [← htl]
        simp [optGo, hv]
      · exact ⟨x, optGo cs (some (w, n)), by simp [optGo, hv, hw]⟩

theorem noAdj_optGo (l : List BfIR) :
    noAdj (optGo l none) = true ∧ ∀ v x, noAdj (optGo l (some (v, x))) = true := by
  induction l with
  | nil => exact ⟨rfl, fun v x => rfl⟩
  | cons c cs ih =>
    cases hv : variantOf c with
    | none =>
      constructor
      · have : optGo (c :: cs) none = c :: optGo cs none := by simp [optGo, hv]
        rw [this]
        exact noAdj_cons (fun b _ => sameVar_none_left hv) ih.1
      · intro v x
        have : optGo (c :: cs) (some (v, x)) = mkC v x :: c :: optGo cs none := by
          simp [optGo, hv]
        rw [this]
        refine noAdj_cons ?_ (noAdj_cons (fun b _ => sameVar_none_left hv) ih.1)
        intro b hb
        injection hb with hb
        rw [← hb]
        exact sameVar_none_right hv
    | some p =>
      obtain ⟨w, n⟩ := p
      constructor
      · have : optGo (c :: cs) none = optGo cs (some (w, n)) := by simp [optGo, hv]
        rw [this]
        exact ih.2 w n
      · intro v x
        by_cases hw : w = v
        · subst hw
          have : optGo (c :: cs) (some (w, x)) = optGo cs (some (w, (x + n) % 256)) := by
            simp [optGo, hv]
          rw [this]
          exact ih.2 w ((x + n) % 256)
        · have : optGo (c :: cs) (some (v, x)) = mkC v x :: optGo cs (some (w, n)) := by
            simp [optGo, hv, hw]
          rw [this]
          obtain ⟨m, tl, htl⟩ := optGo_some_head cs w n
          rw [htl]
          refine noAdj_cons ?_ (htl ▸ ih.2 w n)
          intro b hb
          injection hb with hb
          rw [← hb]
          rw [sameVar_some (variantOf_mkC v x) (variantOf_mkC w m)]
          simp [Ne.symm hw]

theorem optGo_of_noAdj (l : List BfIR) (h : noAdj l = true) : optGo l none = l := by
  induction l with
  | nil => rfl
  | cons c cs ih =>
    cases hv : variantOf c with
    | none =>
      have : optGo (c :: cs) none = c :: optGo cs none := by simp [optGo, hv]
      rw [this, ih (noAdj_tail h)]
    | some p =>
      obtain ⟨v, n⟩ := p
      have hh : headVar cs ≠ some v := by
        cases cs with
        | nil => simp [headVar]
        | cons b bs =>
          intro hcon
          simp only [headVar, List.head?_cons, Option.bind_eq_bind, Option.some_bind] at hcon
          cases hvb : variantOf b with
          | none => rw [hvb] at hcon; exact Option.noConfusion hcon
          | some q =>
            obtain ⟨w, m⟩ := q
            rw [hvb] at hcon
            injection hcon with hcon
            have := noAdj_head_pair h
            rw [sameVar_some hv hvb] at this
            simp at hcon this
            exact this hcon.symm
      have h1 : optGo (c :: cs) none = optGo cs (some (v, n)) := by simp [optGo, hv]
      rw [h1, optGo_flush cs v n hh, mkC_variantOf hv, ih (noAdj_tail h)]

/-- C6: the optimizer is idempotent — a second pass over already-optimized IR
changes nothing, since the first pass leaves no two adjacent instructions of
one counted variant. -/
theorem optimize_idempotent (v : List BfIR) : optimize (optimize v) = optimize v :=
  optGo_of_noAdj (optimize v) (noAdj_optGo v).1

/-! ## Optimizer: folding a run, splitting at a boundary -/

theorem optGo_replicate (v : CVar) (suf : List BfIR) : ∀ (k s : Nat), s < 256 →
    optGo (List.replicate k (mkC v 1) ++ suf) (some (v, s)) =
      optGo suf (some (v, (s + k) % 256)) := by
  intro k
  induction k with
  | zero =>
    intro s hs
    rw [List.replicate_zero, List.nil_append, Nat.add_zero, Nat.mod_eq_of_lt hs]
  | succ k ih =>
    intro s hs
    have h1 : optGo (List.replicate (k + 1) (mkC v 1) ++ suf) (some (v, s)) =
        optGo (List.replicate k (mkC v 1) ++ suf) (some (v, (s + 1) % 256)) := by
      simp [List.replicate_succ, optGo, variantOf_mkC]
    have h2 : ((s + 1) % 256 + k) % 256 = (s + (k + 1)) % 256 := by omega
    rw [h1, ih ((s + 1) % 256) (Nat.mod_lt _ (by norm_num)), h2]

theorem optGo_cons_nc {c : BfIR} (hv : variantOf c = none) (cs : List BfIR) :
    optGo (c :: cs) none = c :: optGo cs none := by
  simp [optGo, hv]

theorem optGo_cons_c {c : BfIR} {v : CVar} {n : Nat} (hv : variantOf c = some (v, n))
    (cs : List BfIR) : optGo (c :: cs) none = optGo cs (some (v, n)) := by
  simp [optGo, hv]

theorem optGo_acc_nc {c : BfIR} (hv : variantOf c = none) (cs : List BfIR)
    (v : CVar) (x : Nat) :
    optGo (c :: cs) (some (v, x)) = mkC v x :: c :: optGo cs none := by
  simp [optGo, hv]

theorem optGo_acc_same {c : BfIR} {v : CVar} {n : Nat} (hv : variantOf c = some (v, n))
    (cs : List BfIR) (x : Nat) :
    optGo (c :: cs) (some (v, x)) = optGo cs (some (v, (x + n) % 256)) := by
  simp [optGo, hv]

theorem optGo_acc_diff {c : BfIR} {w : CVar} {n : Nat} (hv : variantOf c = some (w, n))
    {v : CVar} (hw : ¬w = v) (cs : List BfIR) (x : Nat) :
    optGo (c :: cs) (some (v, x)) = mkC v x :: optGo cs (some (w, n)) := by
  simp [optGo, hv, hw]

theorem optGo_append_nc (b : BfIR) (hb : variantOf b = none) (ys : List BfIR) :
    ∀ (xs : List BfIR) (acc : Option (CVar × Nat)),
    optGo (xs ++ b :: ys) acc = optGo xs acc ++ b :: optGo ys none := by
  intro xs
  induction xs with
  | nil =>
    intro acc
    cases acc with
    | none =>
      rw [List.nil_append, optGo_cons_nc hb, optGo]
      rfl
    | some p =>
      obtain ⟨v, x⟩ := p
      rw [List.nil_append, optGo_acc_nc hb, optGo]
      rfl
  | cons c cs ih =>
    intro acc
    cases hv : variantOf c with
    | none =>
      cases acc with
      | none =>
        rw [List.cons_append, optGo_cons_nc hv, optGo_cons_nc hv, ih none, List.cons_append]
      | some p =>
        obtain ⟨v, x⟩ := p
        rw [List.cons_append, optGo_acc_nc hv, optGo_acc_nc hv, ih none, List.cons_append,
          List.cons_append]
    | some p =>
      obtain ⟨w, n⟩ := p
      cases acc with
      | none =>
        rw [List.cons_append, optGo_cons_c hv, optGo_cons_c hv, ih (some (w, n))]
      | some q =>
        obtain ⟨v, x⟩ := q
        by_cases hw : w = v
        · subst hw
          rw [List.cons_append, optGo_acc_same hv, optGo_acc_same hv,
            ih (some (w, (x + n) % 256))]
        · rw [List.cons_append, optGo_acc_diff hv hw, optGo_acc_diff hv hw,
            ih (some (w, n)), List.cons_append]

theorem noSpan_eq {xs ys : List BfIR} {a b : BfIR}
    (hl : xs.getLast? = some a) (hh : ys.head? = some b) :
    noSpan xs ys = !sameVar a b := by
  unfold noSpan
  rw [hl, hh]

theorem noSpan_headVar {a : BfIR} {u : CVar} {cnt : Nat} {xs ys : List BfIR}
    (hl : xs.getLast? = some a) (hv : variantOf a = some (u, cnt))
    (hns : noSpan xs ys = true) : headVar ys ≠ some u := by
  intro hcon
  cases ys with
  | nil => simp [headVar] at hcon
  | cons b bs =>
    simp only [headVar, List.head?_cons, Option.some_bind] at hcon
    cases hvb : variantOf b with
    | none =>
      rw [hvb] at hcon
      exact Option.noConfusion hcon
    | some q =>
      obtain ⟨w, m⟩ := q
      rw [hvb] at hcon
      simp at hcon
      rw [noSpan_eq hl List.head?_cons, sameVar_some hv hvb] at hns
      simp [hcon] at hns

theorem optGo_append_split (ys : List BfIR) : ∀ (xs : List BfIR) (a : BfIR),
    xs.getLast? = some a → noSpan xs ys = true →
    ∀ acc, optGo (xs ++ ys) acc = optGo xs acc ++ optGo ys none := by
  intro xs
  induction xs with
  | nil =>
    intro a hl
    exact absurd hl (by simp)
  | cons c cs ih =>
    intro a hl hns acc
    cases cs with
    | nil =>
      rw [List.getLast?_singleton] at hl
      injection hl with hl
      subst hl
      cases hv : variantOf c with
      | none =>
        cases acc with
        | none =>
          rw [List.singleton_append, optGo_cons_nc hv, optGo_cons_nc hv, optGo]
          rfl
        | some p =>
          obtain ⟨v, x⟩ := p
          rw [List.singleton_append, optGo_acc_nc hv, optGo_acc_nc hv, optGo]
          rfl
      | some p =>
        obtain ⟨u, cnt⟩ := p
        have hhv : headVar ys ≠ some u := noSpan_headVar (List.getLast?_singleton c) hv hns
        cases acc with
        | none =>
          rw [List.singleton_append, optGo_cons_c hv, optGo_cons_c hv,
            optGo_flush ys u cnt hhv, optGo]
          rfl
        | some q =>
          obtain ⟨v, x⟩ := q
          by_cases hu : u = v
          · subst hu
            rw [List.singleton_append, optGo_acc_same hv, optGo_acc_same hv,
              optGo_flush ys u ((x + cnt) % 256) hhv, optGo]
            rfl
          · rw [List.singleton_append, optGo_acc_diff hv hu, optGo_acc_diff hv hu,
              optGo_flush ys u cnt hhv, optGo]
            rfl
    | cons d ds =>
      have hl' : (d :: ds).getLast? = some a := by
        rw [← List.getLast?_cons_cons]
        exact hl
      have hns' : noSpan (d :: ds) ys = true := by
        unfold noSpan at hns ⊢
        rw [List.getLast?_cons_cons] at hns
        exact hns
      cases hv : variantOf c with
      | none =>
        cases acc with
        | none =>
          rw [List.cons_append, optGo_cons_nc hv, optGo_cons_nc hv,
            ih a hl' hns' none, List.cons_append]
        | some p =>
          obtain ⟨v, x⟩ := p
          rw [List.cons_append, optGo_acc_nc hv, optGo_acc_nc hv,
            ih a hl' hns' none, List.cons_append, List.cons_append]
      | some p =>
        obtain ⟨w, n⟩ := p
        cases acc with
        | none =>
          rw [List.cons_append, optGo_cons_c hv, optGo_cons_c hv, ih a hl' hns' (some (w, n))]
        | some q =>
          obtain ⟨v, x⟩ := q
          by_cases hw : w = v
          · subst hw
            rw [List.cons_append, optGo_acc_same hv, optGo_acc_same hv,
              ih a hl' hns' (some (w, (x + n) % 256))]
          · rw [List.cons_append, optGo_acc_diff hv hw, optGo_acc_diff hv hw,
              ih a hl' hns' (some (w, n)), List.cons_append]

/-- C7: a maximal run of `k` identical unit counted instructions with `k` a
multiple of 256 (maximality: the neighbouring instructions are not of the same
variant) is folded by the optimizer to a single instruction of that variant
with count 0, kept in place in the sequence, because counts are summed with
8-bit wraparound. -/
theorem optimize_fold_mult256 (v : CVar) (pre suf : List BfIR) (k : Nat)
    (hk : 0 < k) (hmod : k % 256 = 0)
    (hpre : noSpan pre (List.replicate k (mkC v 1) ++ suf) = true)
    (hsuf : headVar suf ≠ some v) :
    optimize (pre ++ List.replicate k (mkC v 1) ++ suf) =
      optimize pre ++ mkC v 0 :: optimize suf := by
  have core : optGo (List.replicate k (mkC v 1) ++ suf) none = mkC v 0 :: optGo suf none := by
    obtain ⟨k', rfl⟩ : ∃ k', k = k' + 1 := ⟨k - 1, by omega⟩
    have h1 : optGo (List.replicate (k' + 1) (mkC v 1) ++ suf) none =
        optGo (List.replicate k' (mkC v 1) ++ suf) (some (v, 1)) := by
      rw [List.replicate_succ, List.cons_append, optGo_cons_c (variantOf_mkC v 1)]
    have h2 : (1 + k') % 256 = 0 := by omega
    rw [h1, optGo_replicate v suf k' 1 (by norm_num), h2, optGo_flush suf v 0 hsuf]
  rw [List.append_assoc]
  cases pre with
  | nil => simpa [optimize] using core
  | cons p ps =>
    have hne : p :: ps ≠ [] := by simp
    rw [optimize, optGo_append_split _ (p :: ps) _ (List.getLast?_eq_getLast _ hne) hpre none,
      core]
    rfl

/-- Witness for C7: a run of 256 `AddVal 1` between a `GetByte` and a
`PutByte` folds to `AddVal 0`, which stays in the sequence. -/
theorem optimize_fold_mult256_witness :
    (0 < 256 ∧ 256 % 256 = 0 ∧
      noSpan [BfIR.GetByte] (List.replicate 256 (mkC .av 1) ++ [BfIR.PutByte]) = true ∧
      headVar [BfIR.PutByte] ≠ some CVar.av) ∧
    optimize ([BfIR.GetByte] ++ List.replicate 256 (mkC .av 1) ++ [BfIR.PutByte]) =
      optimize [BfIR.GetByte] ++ mkC .av 0 :: optimize [BfIR.PutByte] :=
  ⟨⟨by decide, by decide, by decide, by decide⟩,
    optimize_fold_mult256 .av [.GetByte] [.PutByte] 256
      (by decide) (by decide) (by decide) (by decide)⟩

/-! ## Host-callback behaviour: end-of-input and I/O failure -/

/-- C8: executing `GetByte` against an exhausted input (the `Ok(0)` arm of
`BfVM::getbyte`) signals success and leaves the state — in particular the
addressed tape cell — unchanged, so the run continues exactly as if the
instruction were skipped. -/
theorem getbyte_eof (rest : List BfIR) (st : St) (r : Res) (h : st.input = []) :
    Exec (.GetByte :: rest) st r ↔ Exec rest st r := by
  constructor
  · intro hx
    cases hx with
    | getEof _ hr => exact hr
    | getOne hin _ =>
      rw [h] at hin
      exact List.noConfusion hin
    | getErr hin =>
      rw [h] at hin
      exact List.noConfusion hin
  · intro hx
    exact Exec.getEof h hx

/-- Witness for C8: on a fresh state with empty input, `GetByte` behaves as a
no-op. -/
theorem getbyte_eof_witness :
    (initSt [] []).input = [] ∧
      (Exec [.GetByte] (initSt [] []) (.ok (initSt [] [])) ↔
        Exec [] (initSt [] []) (.ok (initSt [] []))) :=
  ⟨rfl, getbyte_eof [] (initSt [] []) (.ok (initSt [] [])) rfl⟩

/-- C10: when the input capability fails with an I/O error during `GetByte`
(the `Err(e)` arm of `BfVM::getbyte`), the run terminates with exactly the
I/O-error result carrying the untouched state: the error path returns before
any write, so the addressed tape cell (indeed the whole state) is unchanged,
and the callback's non-null error is the run's outcome. -/
theorem getbyte_io_err (rest : List BfIR) (st : St) (tl : List InEv) (r : Res)
    (h : st.input = .fail :: tl) :
    Exec (.GetByte :: rest) st r ↔ r = .ioError st := by
  constructor
  · intro hx
    cases hx with
    | getEof hin _ =>
      rw [h] at hin
      exact List.noConfusion hin
    | getOne hin _ =>
      rw [h] at hin
      injection hin with hin
      exact InEv.noConfusion hin
    | getErr _ => rfl
  · intro hx
    subst hx
    exact Exec.getErr h

/-- Witness for C10 on a fresh state whose input fails immediately. -/
theorem getbyte_io_err_witness :
    (initSt [InEv.fail] []).input = .fail :: [] ∧
      (Exec [.GetByte] (initSt [InEv.fail] []) (.ioError (initSt [InEv.fail] [])) ↔
        Res.ioError (initSt [InEv.fail] []) = .ioError (initSt [InEv.fail] [])) :=
  ⟨rfl, getbyte_io_err [] (initSt [InEv.fail] []) [] (.ioError (initSt [InEv.fail] [])) rfl⟩

/-! ## Bounds checking: pointer movement is the only checked place, and it
suffices -/

theorem execFC_eq : ∀ (f : Nat) (code : List BfIR) (st : St), st.ptr < MEMORY_SIZE →
    execFC f code st = (execF f code st).map embedRes := by
  intro f
  induction f with
  | zero => intro code st _; rfl
  | succ f ih =>
    intro code st h
    cases code with
    | nil => rfl
    | cons ins rest =>
      cases ins with
      | AddPtr x =>
        by_cases hx : st.ptr + x < MEMORY_SIZE
        · simp only [execF, execFC, if_pos hx]
          exact ih rest _ hx
        · simp only [execF, execFC, if_neg hx]
          rfl
      | SubPtr x =>
        by_cases hx : x ≤ st.ptr
        · simp only [execF, execFC, if_pos hx]
          refine ih rest _ ?_
          show st.ptr - x < MEMORY_SIZE
          omega
        · simp only [execF, execFC, if_neg hx]
          rfl
      | AddVal x =>
        simp only [execF, execFC, if_pos h]
        exact ih rest _ h
      | SubVal x =>
        simp only [execF, execFC, if_pos h]
        exact ih rest _ h
      | GetByte =>
        cases hin : st.input with
        | nil =>
          simp only [execF, execFC, hin]
          exact ih rest st h
        | cons e is =>
          cases e with
          | byte b =>
            simp only [execF, execFC, hin, if_pos h]
            exact ih rest _ h
          | fail =>
            simp only [execF, execFC, hin]
            rfl
      | PutByte =>
        by_cases hoc : st.outcap.head? = some OutEv.fail
        · simp only [execF, execFC, if_pos h, if_pos hoc]
          rfl
        · simp only [execF, execFC, if_pos h, if_neg hoc]
          exact ih rest _ h
      | Jz =>
        cases hsm : splitMatch rest 0 with
        | none =>
          simp only [execF, execFC, hsm]
          rfl
        | some p =>
          obtain ⟨body, after⟩ := p
          by_cases hz : getCell st = 0
          · simp only [execF, execFC, hsm, if_pos h, if_pos hz]
            exact ih after st h
          · simp only [execF, execFC, hsm, if_pos h, if_neg hz]
            exact ih (body ++ .Jz :: rest) st h
      | Jnz => rfl

/-- C2: starting from a pointer inside the tape, the bounds-instrumented
interpreter (which checks every tape read/write) agrees with the plain one
and never reports a memory fault — the pointer-movement checks, the only
bounds checks performed, already guarantee that every tape access is in
bounds; and a pointer movement that would leave `[tape start, tape end)`
terminates the run with the `PointerOverflow` result at once. -/
theorem ptr_bounds_checked (f : Nat) (code : List BfIR) (st : St)
    (h : st.ptr < MEMORY_SIZE) :
    execFC f code st = (execF f code st).map embedRes ∧
    (∀ x rest, MEMORY_SIZE ≤ st.ptr + x →
      execF (f + 1) (.AddPtr x :: rest) st = some (.overflow st.output)) ∧
    (∀ x rest, st.ptr < x →
      execF (f + 1) (.SubPtr x :: rest) st = some (.overflow st.output)) := by
  refine ⟨execFC_eq f code st h, ?_, ?_⟩
  · intro x rest hx
    simp [execF, Nat.not_lt.mpr hx]
  · intro x rest hx
    simp [execF, Nat.not_le.mpr hx]

/-- Witness for C2 at the initial state (pointer at the tape start). -/
theorem ptr_bounds_checked_witness :
    (initSt [] []).ptr < MEMORY_SIZE ∧
      (execFC 1 [.AddVal 5] (initSt [] []) = (execF 1 [.AddVal 5] (initSt [] [])).map embedRes ∧
       (∀ x rest, MEMORY_SIZE ≤ (initSt [] []).ptr + x →
         execF 2 (.AddPtr x :: rest) (initSt [] []) = some (.overflow (initSt [] []).output)) ∧
       (∀ x rest, (initSt [] []).ptr < x →
         execF 2 (.SubPtr x :: rest) (initSt [] []) = some (.overflow (initSt [] []).output))) :=
  ⟨by decide, ptr_bounds_checked 1 [.AddVal 5] (initSt [] []) (by decide)⟩

/-! ## Matched-bracket structure of balanced code -/

theorem bal_cons_counted {c : BfIR} {p : CVar × Nat} (hv : variantOf c = some p)
    (cs : List BfIR) (d : Nat) : balCheckPartial (c :: cs) d = balCheckPartial cs d := by
  cases c <;> first | rfl | exact Option.noConfusion hv

theorem splitMatch_eq : ∀ (l : List BfIR) (d : Nat) (b a : List BfIR),
    splitMatch l d = some (b, a) → l = b ++ .Jnz :: a ∧ balCheckPartial b d = some 0 := by
  intro l
  induction l with
  | nil =>
    intro d b a h
    exact Option.noConfusion h
  | cons c cs ih =>
    intro d b a h
    cases c with
    | Jnz =>
      cases d with
      | zero =>
        simp only [splitMatch, Option.some.injEq, Prod.mk.injEq] at h
        obtain ⟨rfl, rfl⟩ := h
        exact ⟨rfl, rfl⟩
      | succ e =>
        simp only [splitMatch] at h
        cases hs : splitMatch cs e with
        | none =>
          rw [hs] at h
          exact Option.noConfusion h
        | some p =>
          obtain ⟨b', a'⟩ := p
          rw [hs] at h
          simp only [Option.map_some', Option.some.injEq, Prod.mk.injEq] at h
          obtain ⟨rfl, rfl⟩ := h
          obtain ⟨he, hb⟩ := ih e b' a' hs
          refine ⟨by rw [he]; rfl, ?_⟩
          simpa [balCheckPartial] using hb
    | Jz =>
      simp only [splitMatch] at h
      cases hs : splitMatch cs (d + 1) with
      | none =>
        rw [hs] at h
        exact Option.noConfusion h
      | some p =>
        obtain ⟨b', a'⟩ := p
        rw [hs] at h
        simp only [Option.map_some', Option.some.injEq, Prod.mk.injEq] at h
        obtain ⟨rfl, rfl⟩ := h
        obtain ⟨he, hb⟩ := ih (d + 1) b' a' hs
        refine ⟨by rw [he]; rfl, ?_⟩
        simpa [balCheckPartial] using hb
    | AddVal n =>
      simp only [splitMatch] at h
      cases hs : splitMatch cs d with
      | none =>
        rw [hs] at h
        exact Option.noConfusion h
      | some p =>
        obtain ⟨b', a'⟩ := p
        rw [hs] at h
        simp only [Option.map_some', Option.some.injEq, Prod.mk.injEq] at h
        obtain ⟨rfl, rfl⟩ := h
        obtain ⟨he, hb⟩ := ih d b' a' hs
        refine ⟨by rw [he]; rfl, ?_⟩
        simpa [balCheckPartial] using hb
    | SubVal n =>
      simp only [splitMatch] at h
      cases hs : splitMatch cs d with
      | none =>
        rw [hs] at h
        exact Option.noConfusion h
      | some p =>
        obtain ⟨b', a'⟩ := p
        rw [hs] at h
        simp only [Option.map_some', Option.some.injEq, Prod.mk.injEq] at h
        obtain ⟨rfl, rfl⟩ := h
        obtain ⟨he, hb⟩ := ih d b' a' hs
        refine ⟨by rw [he]; rfl, ?_⟩
        simpa [balCheckPartial] using hb
    | AddPtr n =>
      simp only [splitMatch] at h
      cases hs : splitMatch cs d with
      | none =>
        rw [hs] at h
        exact Option.noConfusion h
      | some p =>
        obtain ⟨b', a'⟩ := p
        rw [hs] at h
        simp only [Option.map_some', Option.some.injEq, Prod.mk.injEq] at h
        obtain ⟨rfl, rfl⟩ := h
        obtain ⟨he, hb⟩ := ih d b' a' hs
        refine ⟨by rw [he]; rfl, ?_⟩
        simpa [balCheckPartial] using hb
    | SubPtr n =>
      simp only [splitMatch] at h
      cases hs : splitMatch cs d with
      | none =>
        rw [hs] at h
        exact Option.noConfusion h
      | some p =>
        obtain ⟨b', a'⟩ := p
        rw [hs] at h
        simp only [Option.map_some', Option.some.injEq, Prod.mk.injEq] at h
        obtain ⟨rfl, rfl⟩ := h
        obtain ⟨he, hb⟩ := ih d b' a' hs
        refine ⟨by rw [he]; rfl, ?_⟩
        simpa [balCheckPartial] using hb
    | GetByte =>
      simp only [splitMatch] at h
      cases hs : splitMatch cs d with
      | none =>
        rw [hs] at h
        exact Option.noConfusion h
      | some p =>
        obtain ⟨b', a'⟩ := p
        rw [hs] at h
        simp only [Option.map_some', Option.some.injEq, Prod.mk.injEq] at h
        obtain ⟨rfl, rfl⟩ := h
        obtain ⟨he, hb⟩ := ih d b' a' hs
        refine ⟨by rw [he]; rfl, ?_⟩
        simpa [balCheckPartial] using hb
    | PutByte =>
      simp only [splitMatch] at h
      cases hs : splitMatch cs d with
      | none =>
        rw [hs] at h
        exact Option.noConfusion h
      | some p =>
        obtain ⟨b', a'⟩ := p
        rw [hs] at h
        simp only [Option.map_some', Option.some.injEq, Prod.mk.injEq] at h
        obtain ⟨rfl, rfl⟩ := h
        obtain ⟨he, hb⟩ := ih d b' a' hs
        refine ⟨by rw [he]; rfl, ?_⟩
        simpa [balCheckPartial] using hb

theorem splitMatch_isSome : ∀ (l : List BfIR) (d : Nat),
    balCheckPartial l (d + 1) = some 0 → (splitMatch l d).isSome := by
  intro l
  induction l with
  | nil =>
    intro d h
    simp [balCheckPartial] at h
  | cons c cs ih =>
    intro d h
    cases c with
    | Jnz =>
      cases d with
      | zero => simp [splitMatch]
      | succ e =>
        simp only [balCheckPartial] at h
        have := ih e h
        simpa [splitMatch, Option.isSome_map'] using this
    | Jz =>
      simp only [balCheckPartial] at h
      have := ih (d + 1) h
      simpa [splitMatch, Option.isSome_map'] using this
    | AddVal n =>
      simp only [balCheckPartial] at h
      have := ih d h
      simpa [splitMatch, Option.isSome_map'] using this
    | SubVal n =>
      simp only [balCheckPartial] at h
      have := ih d h
      simpa [splitMatch, Option.isSome_map'] using this
    | AddPtr n =>
      simp only [balCheckPartial] at h
      have := ih d h
      simpa [splitMatch, Option.isSome_map'] using this
    | SubPtr n =>
      simp only [balCheckPartial] at h
      have := ih d h
      simpa [splitMatch, Option.isSome_map'] using this
    | GetByte =>
      simp only [balCheckPartial] at h
      have := ih d h
      simpa [splitMatch, Option.isSome_map'] using this
    | PutByte =>
      simp only [balCheckPartial] at h
      have := ih d h
      simpa [splitMatch, Option.isSome_map'] using this

theorem splitMatch_append : ∀ (b : List BfIR) (d : Nat) (a : List BfIR),
    balCheckPartial b d = some 0 → splitMatch (b ++ .Jnz :: a) d = some (b, a) := by
  intro b
  induction b with
  | nil =>
    intro d a h
    injection h with h
    subst h
    rfl
  | cons c cs ih =>
    intro d a h
    cases c with
    | Jz =>
      simp only [balCheckPartial] at h
      simp only [List.cons_append, splitMatch, List.append_eq, ih (d + 1) a h, Option.map_some']
    | Jnz =>
      cases d with
      | zero => exact Option.noConfusion h
      | succ e =>
        simp only [balCheckPartial] at h
        simp only [List.cons_append, splitMatch, List.append_eq, ih e a h, Option.map_some']
    | AddVal n =>
      simp only [balCheckPartial] at h
      simp only [List.cons_append, splitMatch, List.append_eq, ih d a h, Option.map_some']
    | SubVal n =>
      simp only [balCheckPartial] at h
      simp only [List.cons_append, splitMatch, List.append_eq, ih d a h, Option.map_some']
    | AddPtr n =>
      simp only [balCheckPartial] at h
      simp only [List.cons_append, splitMatch, List.append_eq, ih d a h, Option.map_some']
    | SubPtr n =>
      simp only [balCheckPartial] at h
      simp only [List.cons_append, splitMatch, List.append_eq, ih d a h, Option.map_some']
    | GetByte =>
      simp only [balCheckPartial] at h
      simp only [List.cons_append, splitMatch, List.append_eq, ih d a h, Option.map_some']
    | PutByte =>
      simp only [balCheckPartial] at h
      simp only [List.cons_append, splitMatch, List.append_eq, ih d a h, Option.map_some']

theorem balCheckPartial_shift : ∀ (xs : List BfIR) (d e : Nat),
    balCheckPartial xs d = some e → ∀ k, balCheckPartial xs (d + k) = some (e + k) := by
  intro xs
  induction xs with
  | nil =>
    intro d e h k
    injection h with h
    subst h
    rfl
  | cons c cs ih =>
    intro d e h k
    cases c with
    | Jz =>
      simp only [balCheckPartial] at h ⊢
      have := ih (d + 1) e h k
      rw [Nat.add_right_comm] at this
      exact this
    | Jnz =>
      cases d with
      | zero => exact Option.noConfusion h
      | succ m =>
        simp only [balCheckPartial] at h
        have := ih m e h k
        have hrw : m + 1 + k = (m + k) + 1 := by omega
        rw [hrw]
        simpa [balCheckPartial] using this
    | AddVal n => simpa [balCheckPartial] using ih d e (by simpa [balCheckPartial] using h) k
    | SubVal n => simpa [balCheckPartial] using ih d e (by simpa [balCheckPartial] using h) k
    | AddPtr n => simpa [balCheckPartial] using ih d e (by simpa [balCheckPartial] using h) k
    | SubPtr n => simpa [balCheckPartial] using ih d e (by simpa [balCheckPartial] using h) k
    | GetByte => simpa [balCheckPartial] using ih d e (by simpa [balCheckPartial] using h) k
    | PutByte => simpa [balCheckPartial] using ih d e (by simpa [balCheckPartial] using h) k

theorem optGo_bal : ∀ (l : List BfIR) (acc : Option (CVar × Nat)) (d : Nat),
    balCheckPartial (optGo l acc) d = balCheckPartial l d := by
  intro l
  induction l with
  | nil =>
    intro acc d
    cases acc with
    | none => rfl
    | some p =>
      obtain ⟨v, x⟩ := p
      cases v <;> rfl
  | cons c cs ih =>
    intro acc d
    cases hv : variantOf c with
    | none =>
      cases acc with
      | none =>
        rw [optGo_cons_nc hv]
        cases c with
        | GetByte => simpa [balCheckPartial] using ih none d
        | PutByte => simpa [balCheckPartial] using ih none d
        | Jz => simpa [balCheckPartial] using ih none (d + 1)
        | Jnz =>
          cases d with
          | zero => simp [balCheckPartial]
          | succ e => simpa [balCheckPartial] using ih none e
        | AddVal n => exact Option.noConfusion hv
        | SubVal n => exact Option.noConfusion hv
        | AddPtr n => exact Option.noConfusion hv
        | SubPtr n => exact Option.noConfusion hv
      | some q =>
        obtain ⟨v, x⟩ := q
        rw [optGo_acc_nc hv, bal_cons_counted (variantOf_mkC v x)]
        cases c with
        | GetByte => simpa [balCheckPartial] using ih none d
        | PutByte => simpa [balCheckPartial] using ih none d
        | Jz => simpa [balCheckPartial] using ih none (d + 1)
        | Jnz =>
          cases d with
          | zero => simp [balCheckPartial]
          | succ e => simpa [balCheckPartial] using ih none e
        | AddVal n => exact Option.noConfusion hv
        | SubVal n => exact Option.noConfusion hv
        | AddPtr n => exact Option.noConfusion hv
        | SubPtr n => exact Option.noConfusion hv
    | some p =>
      obtain ⟨w, n⟩ := p
      cases acc with
      | none =>
        rw [optGo_cons_c hv, bal_cons_counted hv]
        exact ih (some (w, n)) d
      | some q =>
        obtain ⟨v, x⟩ := q
        by_cases hw : w = v
        · subst hw
          rw [optGo_acc_same hv, bal_cons_counted hv]
          exact ih (some (w, (x + n) % 256)) d
        · rw [optGo_acc_diff hv hw, bal_cons_counted (variantOf_mkC v x),
            bal_cons_counted hv]
          exact ih (some (w, n)) d

theorem bal_jz_split {rest : List BfIR} (h : balCheckPartial (.Jz :: rest) 0 = some 0) :
    ∃ body after, splitMatch rest 0 = some (body, after) ∧ rest = body ++ .Jnz :: after ∧
      balCheckPartial body 0 = some 0 ∧ balCheckPartial after 0 = some 0 := by
  have h1 : balCheckPartial rest 1 = some 0 := by simpa [balCheckPartial] using h
  have h2 := splitMatch_isSome rest 0 h1
  cases hs : splitMatch rest 0 with
  | none =>
    rw [hs] at h2
    exact Bool.noConfusion h2
  | some p =>
    obtain ⟨body, after⟩ := p
    obtain ⟨he, hb⟩ := splitMatch_eq rest 0 body after hs
    refine ⟨body, after, rfl, he, hb, ?_⟩
    rw [he, balCheckPartial_append] at h1
    have hb1 : balCheckPartial body 1 = some 1 := by
      simpa using balCheckPartial_shift body 0 0 hb 1
    rw [hb1] at h1
    simpa [balCheckPartial, Option.bind] using h1

/-! ## Unit counts, runs, and the pointer-run scanner -/

theorem unitCounted_tail {c : BfIR} {cs : List BfIR}
    (hu : unitCounted (c :: cs) = true) : unitCounted cs = true := by
  simp only [unitCounted, List.all_cons, Bool.and_eq_true] at hu
  exact hu.2

theorem unitCounted_head {c : BfIR} {cs : List BfIR} {w : CVar} {n : Nat}
    (hu : unitCounted (c :: cs) = true) (hv : variantOf c = some (w, n)) : n = 1 := by
  simp only [unitCounted, List.all_cons, Bool.and_eq_true, hv, decide_eq_true_eq] at hu
  exact hu.1

theorem takeRun_cons_same {c : BfIR} {v : CVar} {n : Nat} (hv : variantOf c = some (v, n))
    (cs : List BfIR) : takeRun v (c :: cs) = ((takeRun v cs).1 + 1, (takeRun v cs).2) := by
  simp [takeRun, hv]

theorem takeRun_cons_diff {c : BfIR} {w : CVar} {n : Nat} (hv : variantOf c = some (w, n))
    {v : CVar} (hw : ¬w = v) (cs : List BfIR) : takeRun v (c :: cs) = (0, c :: cs) := by
  simp [takeRun, hv, hw]

theorem takeRun_cons_none {c : BfIR} (hv : variantOf c = none) (v : CVar)
    (cs : List BfIR) : takeRun v (c :: cs) = (0, c :: cs) := by
  simp [takeRun, hv]

theorem takeRun_decomp (v : CVar) : ∀ (l : List BfIR), unitCounted l = true →
    l = List.replicate (takeRun v l).1 (mkC v 1) ++ (takeRun v l).2 ∧
      headVar (takeRun v l).2 ≠ some v := by
  intro l
  induction l with
  | nil =>
    intro _
    exact ⟨rfl, by simp [takeRun, headVar]⟩
  | cons c cs ih =>
    intro hu
    cases hv : variantOf c with
    | none =>
      rw [takeRun_cons_none hv]
      exact ⟨rfl, by simp [headVar, hv]⟩
    | some p =>
      obtain ⟨w, n⟩ := p
      have hn := unitCounted_head hu hv
      subst hn
      by_cases hw : w = v
      · subst hw
        rw [takeRun_cons_same hv]
        obtain ⟨he, hh⟩ := ih (unitCounted_tail hu)
        refine ⟨?_, hh⟩
        conv_lhs => rw [← mkC_variantOf hv]
        rw [List.replicate_succ, List.cons_append, ← he]
      · rw [takeRun_cons_diff hv hw]
        refine ⟨rfl, ?_⟩
        simp [headVar, hv]
        exact hw

theorem optGo_norm (v : CVar) : ∀ (l : List BfIR) (s : Nat), unitCounted l = true →
    s < 256 →
    optGo l (some (v, s)) =
      mkC v ((s + (takeRun v l).1) % 256) :: optGo (takeRun v l).2 none := by
  intro l
  induction l with
  | nil =>
    intro s _ hs
    show [mkC v s] = mkC v ((s + (takeRun v ([] : List BfIR)).1) % 256) :: optGo [] none
    rw [takeRun]
    simp [Nat.mod_eq_of_lt hs, optGo]
  | cons c cs ih =>
    intro s hu hs
    cases hv : variantOf c with
    | none =>
      rw [takeRun_cons_none hv, optGo_acc_nc hv, optGo_cons_nc hv]
      simp [Nat.mod_eq_of_lt hs]
    | some p =>
      obtain ⟨w, n⟩ := p
      have hn := unitCounted_head hu hv
      subst hn
      by_cases hw : w = v
      · subst hw
        rw [optGo_acc_same hv, takeRun_cons_same hv,
          ih ((s + 1) % 256) (unitCounted_tail hu) (Nat.mod_lt _ (by norm_num))]
        have harith : ((s + 1) % 256 + (takeRun w cs).1) % 256 =
            (s + ((takeRun w cs).1 + 1)) % 256 := by omega
        rw [harith]
      · rw [optGo_acc_diff hv hw, takeRun_cons_diff hv hw, optGo_cons_c hv]
        simp [Nat.mod_eq_of_lt hs]

theorem ptrVarOf_variant {c : BfIR} {v : CVar} {n : Nat} (h : variantOf c = some (v, n)) :
    ptrVarOf c = if cvarIsPtr v then some (v, n) else none := by
  cases c <;> simp only [variantOf, Option.some.injEq, Prod.mk.injEq, reduceCtorEq] at h <;>
    obtain ⟨rfl, rfl⟩ := h <;> rfl

theorem ptrVarOf_none {c : BfIR} (h : variantOf c = none) : ptrVarOf c = none := by
  cases c <;> first | rfl | exact Option.noConfusion h

theorem ptrAux_acc_np {c : BfIR} (hp : ptrVarOf c = none) (cs : List BfIR)
    (v : CVar) (s : Nat) :
    ptrAux (c :: cs) (some (v, s)) = (decide (s < 256) && ptrAux cs none) := by
  simp [ptrAux, hp]

theorem ptrAux_acc_same {c : BfIR} {v : CVar} {n : Nat} (hp : ptrVarOf c = some (v, n))
    (cs : List BfIR) (s : Nat) :
    ptrAux (c :: cs) (some (v, s)) = ptrAux cs (some (v, s + n)) := by
  simp [ptrAux, hp]

theorem ptrAux_acc_diff {c : BfIR} {w : CVar} {n : Nat} (hp : ptrVarOf c = some (w, n))
    {v : CVar} (hw : ¬w = v) (cs : List BfIR) (s : Nat) :
    ptrAux (c :: cs) (some (v, s)) = (decide (s < 256) && ptrAux cs (some (w, n))) := by
  simp [ptrAux, hp, hw]

theorem ptrAux_cons_np {c : BfIR} (hp : ptrVarOf c = none) (cs : List BfIR) :
    ptrAux (c :: cs) none = ptrAux cs none := by
  simp [ptrAux, hp]

theorem ptrAux_cons_p {c : BfIR} {w : CVar} {n : Nat} (hp : ptrVarOf c = some (w, n))
    (cs : List BfIR) : ptrAux (c :: cs) none = ptrAux cs (some (w, n)) := by
  simp [ptrAux, hp]

theorem ptrAux_bound : ∀ (l : List BfIR) (v : CVar) (s : Nat),
    ptrAux l (some (v, s)) = true → s < 256 := by
  intro l
  induction l with
  | nil =>
    intro v s h
    simpa [ptrAux] using h
  | cons c cs ih =>
    intro v s h
    cases hp : ptrVarOf c with
    | none =>
      rw [ptrAux_acc_np hp] at h
      simp at h
      exact h.1
    | some p =>
      obtain ⟨w, n⟩ := p
      by_cases hw : w = v
      · subst hw
        rw [ptrAux_acc_same hp] at h
        have := ih w (s + n) h
        omega
      · rw [ptrAux_acc_diff hp hw] at h
        simp at h
        exact h.1

theorem variantOf_of_ptrVarOf {c : BfIR} {p : CVar × Nat} (h : ptrVarOf c = some p) :
    variantOf c = some p := by
  cases c <;> first | exact h | exact Option.noConfusion h

theorem ptrAux_run (vp : CVar) (hvp : cvarIsPtr vp = true) : ∀ (l : List BfIR) (s : Nat),
    unitCounted l = true → ptrAux l (some (vp, s)) = true →
    s + (takeRun vp l).1 < 256 := by
  intro l
  induction l with
  | nil =>
    intro s _ h
    rw [takeRun]
    simpa [ptrAux] using h
  | cons c cs ih =>
    intro s hu h
    cases hv : variantOf c with
    | none =>
      have hp := ptrVarOf_none hv
      rw [ptrAux_acc_np hp] at h
      simp at h
      rw [takeRun_cons_none hv]
      simpa using h.1
    | some p =>
      obtain ⟨w, n⟩ := p
      have hn := unitCounted_head hu hv
      subst hn
      by_cases hw : w = vp
      · subst hw
        have hp : ptrVarOf c = some (w, 1) := by rw [ptrVarOf_variant hv, if_pos hvp]
        rw [ptrAux_acc_same hp] at h
        have hb := ih (s + 1) (unitCounted_tail hu) h
        rw [takeRun_cons_same hv]
        omega
      · rw [takeRun_cons_diff hv hw]
        cases hcp : cvarIsPtr w with
        | false =>
          have hp : ptrVarOf c = none := by
            rw [ptrVarOf_variant hv, if_neg (by simp [hcp])]
          rw [ptrAux_acc_np hp] at h
          simp at h
          simpa using h.1
        | true =>
          have hp : ptrVarOf c = some (w, 1) := by rw [ptrVarOf_variant hv, if_pos hcp]
          rw [ptrAux_acc_diff hp hw] at h
          simp at h
          simpa using h.1

theorem ptrAux_drop_acc : ∀ (l : List BfIR) (v : CVar) (s : Nat),
    headVar l ≠ some v → ptrAux l (some (v, s)) = true → ptrAux l none = true := by
  intro l
  cases l with
  | nil => exact fun v s _ _ => rfl
  | cons c cs =>
    intro v s hh h
    cases hp : ptrVarOf c with
    | none =>
      rw [ptrAux_cons_np hp]
      rw [ptrAux_acc_np hp] at h
      simp at h
      exact h.2
    | some q =>
      obtain ⟨w, n⟩ := q
      have hv : variantOf c = some (w, n) := variantOf_of_ptrVarOf hp
      have hw : ¬w = v := by
        intro he
        exact hh (by simp [headVar, hv, he])
      rw [ptrAux_cons_p hp]
      rw [ptrAux_acc_diff hp hw] at h
      simp at h
      exact h.2

theorem ptrAux_suffix (b : BfIR) (hb : ptrVarOf b = none) (ys : List BfIR) :
    ∀ (xs : List BfIR) (pacc : Option (CVar × Nat)),
    ptrAux (xs ++ b :: ys) pacc = true → ptrAux ys none = true := by
  intro xs
  induction xs with
  | nil =>
    intro pacc h
    cases pacc with
    | none =>
      rw [List.nil_append, ptrAux_cons_np hb] at h
      exact h
    | some q =>
      obtain ⟨v, s⟩ := q
      rw [List.nil_append, ptrAux_acc_np hb] at h
      simp at h
      exact h.2
  | cons c cs ih =>
    intro pacc h
    cases hp : ptrVarOf c with
    | none =>
      cases pacc with
      | none =>
        rw [List.cons_append, ptrAux_cons_np hp] at h
        exact ih none h
      | some q =>
        obtain ⟨v, s⟩ := q
        rw [List.cons_append, ptrAux_acc_np hp] at h
        simp at h
        exact ih none h.2
    | some q =>
      obtain ⟨w, n⟩ := q
      cases pacc with
      | none =>
        rw [List.cons_append, ptrAux_cons_p hp] at h
        exact ih (some (w, n)) h
      | some q2 =>
        obtain ⟨v, s⟩ := q2
        by_cases hw : w = v
        · subst hw
          rw [List.cons_append, ptrAux_acc_same hp] at h
          exact ih (some (w, s + n)) h
        · rw [List.cons_append, ptrAux_acc_diff hp hw] at h
          simp at h
          exact ih (some (w, n)) h.2

theorem ptrAux_prefix (ys : List BfIR) : ∀ (xs : List BfIR) (pacc : Option (CVar × Nat)),
    ptrAux (xs ++ ys) pacc = true → ptrAux xs pacc = true := by
  intro xs
  induction xs with
  | nil =>
    intro pacc h
    cases pacc with
    | none => rfl
    | some q =>
      obtain ⟨v, s⟩ := q
      rw [List.nil_append] at h
      simpa [ptrAux] using ptrAux_bound ys v s h
  | cons c cs ih =>
    intro pacc h
    cases hp : ptrVarOf c with
    | none =>
      cases pacc with
      | none =>
        rw [List.cons_append, ptrAux_cons_np hp] at h
        rw [ptrAux_cons_np hp]
        exact ih none h
      | some q =>
        obtain ⟨v, s⟩ := q
        rw [List.cons_append, ptrAux_acc_np hp] at h
        rw [ptrAux_acc_np hp]
        simp at h ⊢
        exact ⟨h.1, ih none h.2⟩
    | some q =>
      obtain ⟨w, n⟩ := q
      cases pacc with
      | none =>
        rw [List.cons_append, ptrAux_cons_p hp] at h
        rw [ptrAux_cons_p hp]
        exact ih (some (w, n)) h
      | some q2 =>
        obtain ⟨v, s⟩ := q2
        by_cases hw : w = v
        · subst hw
          rw [List.cons_append, ptrAux_acc_same hp] at h
          rw [ptrAux_acc_same hp]
          exact ih (some (w, s + n)) h
        · rw [List.cons_append, ptrAux_acc_diff hp hw] at h
          rw [ptrAux_acc_diff hp hw]
          simp at h ⊢
          exact ⟨h.1, ih (some (w, n)) h.2⟩

theorem ptrAux_glue (b : BfIR) (hb : ptrVarOf b = none) (ys : List BfIR)
    (hys : ptrAux ys none = true) : ∀ (xs : List BfIR) (pacc : Option (CVar × Nat)),
    ptrAux xs pacc = true → ptrAux (xs ++ b :: ys) pacc = true := by
  intro xs
  induction xs with
  | nil =>
    intro pacc h
    cases pacc with
    | none =>
      rw [List.nil_append, ptrAux_cons_np hb]
      exact hys
    | some q =>
      obtain ⟨v, s⟩ := q
      rw [List.nil_append, ptrAux_acc_np hb]
      simp
      exact ⟨by simpa [ptrAux] using h, hys⟩
  | cons c cs ih =>
    intro pacc h
    cases hp : ptrVarOf c with
    | none =>
      cases pacc with
      | none =>
        rw [ptrAux_cons_np hp] at h
        rw [List.cons_append, ptrAux_cons_np hp]
        exact ih none h
      | some q =>
        obtain ⟨v, s⟩ := q
        rw [ptrAux_acc_np hp] at h
        rw [List.cons_append, ptrAux_acc_np hp]
        simp at h ⊢
        exact ⟨h.1, ih none h.2⟩
    | some q =>
      obtain ⟨w, n⟩ := q
      cases pacc with
      | none =>
        rw [ptrAux_cons_p hp] at h
        rw [List.cons_append, ptrAux_cons_p hp]
        exact ih (some (w, n)) h
      | some q2 =>
        obtain ⟨v, s⟩ := q2
        by_cases hw : w = v
        · subst hw
          rw [ptrAux_acc_same hp] at h
          rw [List.cons_append, ptrAux_acc_same hp]
          exact ih (some (w, s + n)) h
        · rw [ptrAux_acc_diff hp hw] at h
          rw [List.cons_append, ptrAux_acc_diff hp hw]
          simp at h ⊢
          exact ⟨h.1, ih (some (w, n)) h.2⟩

theorem ptrAux_replicate_ptr (vp : CVar) (hvp : cvarIsPtr vp = true) :
    ∀ (k : Nat) (rest : List BfIR) (s : Nat),
    ptrAux (List.replicate k (mkC vp 1) ++ rest) (some (vp, s)) =
      ptrAux rest (some (vp, s + k)) := by
  intro k
  induction k with
  | zero => intro rest s; simp
  | succ k ih =>
    intro rest s
    have hpmk : ptrVarOf (mkC vp 1) = some (vp, 1) := by
      rw [ptrVarOf_variant (variantOf_mkC vp 1), if_pos hvp]
    rw [List.replicate_succ, List.cons_append, ptrAux_acc_same hpmk, ih]
    have harith : s + 1 + k = s + (k + 1) := by omega
    rw [harith]

theorem ptrAux_replicate_val (vv : CVar) (hvv : cvarIsPtr vv = false) :
    ∀ (k : Nat) (rest : List BfIR),
    ptrAux (List.replicate k (mkC vv 1) ++ rest) none = ptrAux rest none := by
  intro k
  induction k with
  | zero => intro rest; simp
  | succ k ih =>
    intro rest
    have hpmk : ptrVarOf (mkC vv 1) = none := by
      rw [ptrVarOf_variant (variantOf_mkC vv 1), if_neg (by simp [hvv])]
    rw [List.replicate_succ, List.cons_append, ptrAux_cons_np hpmk, ih]

/-! ## State algebra and pending-instruction emission -/

theorem getCell_setCell (st : St) (v : Nat) : getCell (setCell st v) = v := by
  simp [getCell, setCell]

theorem setCell_setCell (st : St) (u v : Nat) :
    setCell (setCell st u) v = setCell st v := by
  unfold setCell
  simp only []
  congr 1
  funext i
  by_cases hi : i = st.ptr <;> simp [hi]

theorem setCell_congr (st : St) {u v : Nat} (h : u = v) : setCell st u = setCell st v := by
  rw [h]

/-- Executing the folded instruction pending in the optimizer's accumulator
takes `st₀` to `st` (when `accApply` succeeds) and then continues. -/
theorem exec_pending (v : CVar) (x : Nat) (st₀ st : St) (r : Res) (l : List BfIR)
    (ha : accApply (some (v, x)) st₀ = some st) (hk : Exec l st r) :
    Exec (mkC v x :: l) st₀ r := by
  cases v with
  | ap =>
    simp only [accApply] at ha
    by_cases hlt : st₀.ptr + x < MEMORY_SIZE
    · rw [if_pos hlt] at ha
      injection ha with ha
      subst ha
      exact Exec.addPtrOk hlt hk
    · rw [if_neg hlt] at ha
      exact Option.noConfusion ha
  | sp =>
    simp only [accApply] at ha
    by_cases hle : x ≤ st₀.ptr
    · rw [if_pos hle] at ha
      injection ha with ha
      subst ha
      exact Exec.subPtrOk hle hk
    · rw [if_neg hle] at ha
      exact Option.noConfusion ha
  | av =>
    injection ha with ha
    subst ha
    exact Exec.addVal hk
  | sv =>
    injection ha with ha
    subst ha
    exact Exec.subVal hk

/-- A pointer-movement run whose folded count would leave the tape faults with
`PointerOverflow` when executed folded (forward direction, `AddPtr`). -/
theorem emit_ap_fault (rest : List BfIR) (s : Nat) (st₀ : St)
    (hu : unitCounted rest = true) (hptr : ptrAux rest (some (.ap, s)) = true)
    (hof : MEMORY_SIZE ≤ st₀.ptr + s) :
    Exec (optGo rest (some (.ap, s))) st₀ (.overflow st₀.output) := by
  have hs := ptrAux_bound rest .ap s hptr
  have hrun := ptrAux_run .ap rfl rest s hu hptr
  rw [optGo_norm .ap rest s hu hs, Nat.mod_eq_of_lt (by omega)]
  exact Exec.addPtrOver (by omega)

/-- As `emit_ap_fault`, for `SubPtr` (pointer would move before the tape). -/
theorem emit_sp_fault (rest : List BfIR) (s : Nat) (st₀ : St)
    (hu : unitCounted rest = true) (hptr : ptrAux rest (some (.sp, s)) = true)
    (hof : st₀.ptr < s) :
    Exec (optGo rest (some (.sp, s))) st₀ (.overflow st₀.output) := by
  have hs := ptrAux_bound rest .sp s hptr
  have hrun := ptrAux_run .sp rfl rest s hu hptr
  rw [optGo_norm .sp rest s hu hs, Nat.mod_eq_of_lt (by omega)]
  exact Exec.subPtrOver (by omega)

/-- Optimized loop skip: the split of the optimized continuation mirrors the
split of the source continuation. -/
theorem optGo_splitMatch {rest body after : List BfIR}
    (hs : splitMatch rest 0 = some (body, after)) :
    splitMatch (optGo rest none) 0 = some (optGo body none, optGo after none) := by
  obtain ⟨heq, hbb⟩ := splitMatch_eq rest 0 body after hs
  rw [heq, optGo_append_nc .Jnz rfl after body none]
  exact splitMatch_append (optGo body none) 0 (optGo after none)
    (by rw [optGo_bal]; exact hbb)

theorem jz_skip_core {rest body after : List BfIR} {st : St} {r : Res}
    (hs : splitMatch rest 0 = some (body, after)) (hz : getCell st = 0)
    (hafter : Exec (optGo after none) st r) :
    Exec (optGo (.Jz :: rest) none) st r := by
  rw [optGo_cons_nc (show variantOf BfIR.Jz = none from rfl)]
  exact Exec.jzSkip (optGo_splitMatch hs) hz hafter

theorem jz_loop_core {rest body after : List BfIR} {st : St} {r : Res}
    (hs : splitMatch rest 0 = some (body, after)) (hz : getCell st ≠ 0)
    (hbody : Exec (optGo (body ++ .Jz :: rest) none) st r) :
    Exec (optGo (.Jz :: rest) none) st r := by
  rw [optGo_cons_nc (show variantOf BfIR.Jz = none from rfl)]
  refine Exec.jzLoop (optGo_splitMatch hs) hz ?_
  rw [← optGo_append_nc .Jz rfl rest body none]
  exact hbody

/-! ## Forward simulation: folded code simulates the source -/

theorem vAddVal (n : Nat) : variantOf (.AddVal n) = some (.av, n) := rfl

theorem vSubVal (n : Nat) : variantOf (.SubVal n) = some (.sv, n) := rfl

theorem vAddPtr (n : Nat) : variantOf (.AddPtr n) = some (.ap, n) := rfl

theorem vSubPtr (n : Nat) : variantOf (.SubPtr n) = some (.sp, n) := rfl

theorem pAddPtr (n : Nat) : ptrVarOf (.AddPtr n) = some (.ap, n) := rfl

theorem pSubPtr (n : Nat) : ptrVarOf (.SubPtr n) = some (.sp, n) := rfl

theorem pAddVal (n : Nat) : ptrVarOf (.AddVal n) = none := rfl

theorem pSubVal (n : Nat) : ptrVarOf (.SubVal n) = none := rfl

theorem pGetByte : ptrVarOf .GetByte = none := rfl

theorem pPutByte : ptrVarOf .PutByte = none := rfl

theorem pJz : ptrVarOf .Jz = none := rfl

theorem vGetByte : variantOf .GetByte = none := rfl

theorem vPutByte : variantOf .PutByte = none := rfl

theorem vJz : variantOf .Jz = none := rfl

theorem accApply_ap_pos {st : St} {s : Nat} (h : st.ptr + s < MEMORY_SIZE) :
    accApply (some (.ap, s)) st = some { st with ptr := st.ptr + s } := by
  simp only [accApply]
  rw [if_pos h]

theorem accApply_sp_pos {st : St} {s : Nat} (h : s ≤ st.ptr) :
    accApply (some (.sp, s)) st = some { st with ptr := st.ptr - s } := by
  simp only [accApply]
  rw [if_pos h]

theorem accApply_av (st : St) (s : Nat) :
    accApply (some (.av, s)) st = some (setCell st ((getCell st + s) % 256)) := rfl

theorem accApply_sv (st : St) (s : Nat) :
    accApply (some (.sv, s)) st =
      some (setCell st ((getCell st + (256 - s % 256)) % 256)) := rfl

theorem accBound_intro {v0 : CVar} {s0 : Nat} (h : s0 < 256) :
    ∀ v s, (some (v0, s0) : Option (CVar × Nat)) = some (v, s) → s < 256 := by
  intro v s he
  injection he with he
  injection he with he1 he2
  omega

theorem accBound_none :
    ∀ v s, (none : Option (CVar × Nat)) = some (v, s) → s < 256 := by
  intro v s he
  exact Option.noConfusion he

theorem ptrAux_none_of_acc {c : BfIR} (hpc : ptrVarOf c = none) {rest : List BfIR}
    (acc : Option (CVar × Nat)) (hptr : ptrAux (c :: rest) (accPtr acc) = true) :
    ptrAux (c :: rest) none = true := by
  cases acc with
  | none => exact hptr
  | some q =>
    obtain ⟨v, s⟩ := q
    cases v with
    | av => exact hptr
    | sv => exact hptr
    | ap =>
      rw [show accPtr (some (CVar.ap, s)) = some (CVar.ap, s) from rfl,
        ptrAux_acc_np hpc] at hptr
      simp at hptr
      rw [ptrAux_cons_np hpc]
      exact hptr.2
    | sp =>
      rw [show accPtr (some (CVar.sp, s)) = some (CVar.sp, s) from rfl,
        ptrAux_acc_np hpc] at hptr
      simp at hptr
      rw [ptrAux_cons_np hpc]
      exact hptr.2

/-- Forward simulation of the optimizer fold: a run of the source IR from the
state reached by the pending folded instruction is also a run of the folded
IR from the pre-pending state, with the same result — provided counts are
unit, brackets balance, and pointer runs stay below 256. -/
theorem exec_fold {code : List BfIR} {st : St} {r : Res} (d : Exec code st r) :
    ∀ (acc : Option (CVar × Nat)) (st₀ : St),
      accApply acc st₀ = some st →
      (∀ v s, acc = some (v, s) → s < 256) →
      unitCounted code = true →
      balCheckPartial code 0 = some 0 →
      ptrAux code (accPtr acc) = true →
      Exec (optGo code acc) st₀ r := by
  induction d with
  | nil stn =>
    intro acc st₀ ha _ _ _ _
    cases acc with
    | none =>
      injection ha with ha
      subst ha
      exact Exec.nil _
    | some q =>
      obtain ⟨v, x⟩ := q
      exact exec_pending v x st₀ stn (.ok stn) [] ha (Exec.nil stn)
  | @addPtrOk x rest st r h hr IH =>
    intro acc st₀ ha hb hu hbal hptr
    have hx : x = 1 := unitCounted_head hu (vAddPtr x)
    subst hx
    cases acc with
    | none =>
      injection ha with ha
      subst ha
      rw [optGo_cons_c (vAddPtr 1)]
      refine IH (some (.ap, 1)) st₀ (accApply_ap_pos h) (accBound_intro (by norm_num))
        (unitCounted_tail hu) hbal ?_
      rw [show accPtr (some (CVar.ap, 1)) = some (CVar.ap, 1) from rfl,
        ← ptrAux_cons_p (pAddPtr 1)]
      exact hptr
    | some q =>
      obtain ⟨v, s⟩ := q
      cases v with
      | ap =>
        simp only [accApply] at ha
        by_cases hlt : st₀.ptr + s < MEMORY_SIZE
        · rw [if_pos hlt] at ha
          injection ha with ha
          subst ha
          have h' : st₀.ptr + s + 1 < MEMORY_SIZE := h
          have hptr' : ptrAux rest (some (.ap, s + 1)) = true := by
            rw [← ptrAux_acc_same (pAddPtr 1)]
            exact hptr
          have hs1 : s + 1 < 256 := ptrAux_bound rest .ap (s + 1) hptr'
          rw [optGo_acc_same (vAddPtr 1), Nat.mod_eq_of_lt hs1]
          exact IH (some (.ap, s + 1)) st₀ (accApply_ap_pos (by omega))
            (accBound_intro hs1) (unitCounted_tail hu) hbal hptr'
        · rw [if_neg hlt] at ha
          exact Option.noConfusion ha
      | sp =>
        rw [optGo_acc_diff (vAddPtr 1) (show ¬CVar.ap = CVar.sp by decide)]
        refine exec_pending .sp s st₀ st r _ ha ?_
        have hptr' : ptrAux rest (some (.ap, 1)) = true := by
          have h2 := hptr
          rw [show accPtr (some (CVar.sp, s)) = some (CVar.sp, s) from rfl,
            ptrAux_acc_diff (pAddPtr 1) (show ¬CVar.ap = CVar.sp by decide)] at h2
          simp at h2
          exact h2.2
        exact IH (some (.ap, 1)) st (accApply_ap_pos h) (accBound_intro (by norm_num))
          (unitCounted_tail hu) hbal hptr'
      | av =>
        rw [optGo_acc_diff (vAddPtr 1) (show ¬CVar.ap = CVar.av by decide)]
        refine exec_pending .av s st₀ st r _ ha ?_
        have hptr' : ptrAux rest (some (.ap, 1)) = true := by
          have h2 := hptr
          rw [show accPtr (some (CVar.av, s)) = none from rfl,
            ptrAux_cons_p (pAddPtr 1)] at h2
          exact h2
        exact IH (some (.ap, 1)) st (accApply_ap_pos h) (accBound_intro (by norm_num))
          (unitCounted_tail hu) hbal hptr'
      | sv =>
        rw [optGo_acc_diff (vAddPtr 1) (show ¬CVar.ap = CVar.sv by decide)]
        refine exec_pending .sv s st₀ st r _ ha ?_
        have hptr' : ptrAux rest (some (.ap, 1)) = true := by
          have h2 := hptr
          rw [show accPtr (some (CVar.sv, s)) = none from rfl,
            ptrAux_cons_p (pAddPtr 1)] at h2
          exact h2
        exact IH (some (.ap, 1)) st (accApply_ap_pos h) (accBound_intro (by norm_num))
          (unitCounted_tail hu) hbal hptr'
  | @addPtrOver x rest st h =>
    intro acc st₀ ha hb hu hbal hptr
    have hx : x = 1 := unitCounted_head hu (vAddPtr x)
    subst hx
    cases acc with
    | none =>
      injection ha with ha
      subst ha
      rw [optGo_cons_c (vAddPtr 1)]
      refine emit_ap_fault rest 1 st₀ (unitCounted_tail hu) ?_ (by omega)
      rw [← ptrAux_cons_p (pAddPtr 1)]
      exact hptr
    | some q =>
      obtain ⟨v, s⟩ := q
      cases v with
      | ap =>
        simp only [accApply] at ha
        by_cases hlt : st₀.ptr + s < MEMORY_SIZE
        · rw [if_pos hlt] at ha
          injection ha with ha
          subst ha
          have h' : MEMORY_SIZE ≤ st₀.ptr + s + 1 := h
          have hptr' : ptrAux rest (some (.ap, s + 1)) = true := by
            rw [← ptrAux_acc_same (pAddPtr 1)]
            exact hptr
          have hs1 : s + 1 < 256 := ptrAux_bound rest .ap (s + 1) hptr'
          rw [optGo_acc_same (vAddPtr 1), Nat.mod_eq_of_lt hs1]
          exact emit_ap_fault rest (s + 1) st₀ (unitCounted_tail hu) hptr' (by omega)
        · rw [if_neg hlt] at ha
          exact Option.noConfusion ha
      | sp =>
        rw [optGo_acc_diff (vAddPtr 1) (show ¬CVar.ap = CVar.sp by decide)]
        refine exec_pending .sp s st₀ st _ _ ha ?_
        have hptr' : ptrAux rest (some (.ap, 1)) = true := by
          have h2 := hptr
          rw [show accPtr (some (CVar.sp, s)) = some (CVar.sp, s) from rfl,
            ptrAux_acc_diff (pAddPtr 1) (show ¬CVar.ap = CVar.sp by decide)] at h2
          simp at h2
          exact h2.2
        exact emit_ap_fault rest 1 st (unitCounted_tail hu) hptr' (by omega)
      | av =>
        rw [optGo_acc_diff (vAddPtr 1) (show ¬CVar.ap = CVar.av by decide)]
        refine exec_pending .av s st₀ st _ _ ha ?_
        have hptr' : ptrAux rest (some (.ap, 1)) = true := by
          have h2 := hptr
          rw [show accPtr (some (CVar.av, s)) = none from rfl,
            ptrAux_cons_p (pAddPtr 1)] at h2
          exact h2
        exact emit_ap_fault rest 1 st (unitCounted_tail hu) hptr' (by omega)
      | sv =>
        rw [optGo_acc_diff (vAddPtr 1) (show ¬CVar.ap = CVar.sv by decide)]
        refine exec_pending .sv s st₀ st _ _ ha ?_
        have hptr' : ptrAux rest (some (.ap, 1)) = true := by
          have h2 := hptr
          rw [show accPtr (some (CVar.sv, s)) = none from rfl,
            ptrAux_cons_p (pAddPtr 1)] at h2
          exact h2
        exact emit_ap_fault rest 1 st (unitCounted_tail hu) hptr' (by omega)
  | @subPtrOk x rest st r h hr IH =>
    intro acc st₀ ha hb hu hbal hptr
    have hx : x = 1 := unitCounted_head hu (vSubPtr x)
    subst hx
    cases acc with
    | none =>
      injection ha with ha
      subst ha
      rw [optGo_cons_c (vSubPtr 1)]
      refine IH (some (.sp, 1)) st₀ (accApply_sp_pos h) (accBound_intro (by norm_num))
        (unitCounted_tail hu) hbal ?_
      rw [show accPtr (some (CVar.sp, 1)) = some (CVar.sp, 1) from rfl,
        ← ptrAux_cons_p (pSubPtr 1)]
      exact hptr
    | some q =>
      obtain ⟨v, s⟩ := q
      cases v with
      | sp =>
        simp only [accApply] at ha
        by_cases hle : s ≤ st₀.ptr
        · rw [if_pos hle] at ha
          injection ha with ha
          subst ha
          have h' : 1 ≤ st₀.ptr - s := h
          have hptr' : ptrAux rest (some (.sp, s + 1)) = true := by
            rw [← ptrAux_acc_same (pSubPtr 1)]
            exact hptr
          have hs1 : s + 1 < 256 := ptrAux_bound rest .sp (s + 1) hptr'
          rw [optGo_acc_same (vSubPtr 1), Nat.mod_eq_of_lt hs1]
          exact IH (some (.sp, s + 1)) st₀ (accApply_sp_pos (by omega))
            (accBound_intro hs1) (unitCounted_tail hu) hbal hptr'
        · rw [if_neg hle] at ha
          exact Option.noConfusion ha
      | ap =>
        rw [optGo_acc_diff (vSubPtr 1) (show ¬CVar.sp = CVar.ap by decide)]
        refine exec_pending .ap s st₀ st r _ ha ?_
        have hptr' : ptrAux rest (some (.sp, 1)) = true := by
          have h2 := hptr
          rw [show accPtr (some (CVar.ap, s)) = some (CVar.ap, s) from rfl,
            ptrAux_acc_diff (pSubPtr 1) (show ¬CVar.sp = CVar.ap by decide)] at h2
          simp at h2
          exact h2.2
        exact IH (some (.sp, 1)) st (accApply_sp_pos h) (accBound_intro (by norm_num))
          (unitCounted_tail hu) hbal hptr'
      | av =>
        rw [optGo_acc_diff (vSubPtr 1) (show ¬CVar.sp = CVar.av by decide)]
        refine exec_pending .av s st₀ st r _ ha ?_
        have hptr' : ptrAux rest (some (.sp, 1)) = true := by
          have h2 := hptr
          rw [show accPtr (some (CVar.av, s)) = none from rfl,
            ptrAux_cons_p (pSubPtr 1)] at h2
          exact h2
        exact IH (some (.sp, 1)) st (accApply_sp_pos h) (accBound_intro (by norm_num))
          (unitCounted_tail hu) hbal hptr'
      | sv =>
        rw [optGo_acc_diff (vSubPtr 1) (show ¬CVar.sp = CVar.sv by decide)]
        refine exec_pending .sv s st₀ st r _ ha ?_
        have hptr' : ptrAux rest (some (.sp, 1)) = true := by
          have h2 := hptr
          rw [show accPtr (some (CVar.sv, s)) = none from rfl,
            ptrAux_cons_p (pSubPtr 1)] at h2
          exact h2
        exact IH (some (.sp, 1)) st (accApply_sp_pos h) (accBound_intro (by norm_num))
          (unitCounted_tail hu) hbal hptr'
  | @subPtrOver x rest st h =>
    intro acc st₀ ha hb hu hbal hptr
    have hx : x = 1 := unitCounted_head hu (vSubPtr x)
    subst hx
    cases acc with
    | none =>
      injection ha with ha
      subst ha
      rw [optGo_cons_c (vSubPtr 1)]
      refine emit_sp_fault rest 1 st₀ (unitCounted_tail hu) ?_ (by omega)
      rw [← ptrAux_cons_p (pSubPtr 1)]
      exact hptr
    | some q =>
      obtain ⟨v, s⟩ := q
      cases v with
      | sp =>
        simp only [accApply] at ha
        by_cases hle : s ≤ st₀.ptr
        · rw [if_pos hle] at ha
          injection ha with ha
          subst ha
          have h' : st₀.ptr - s < 1 := h
          have hptr' : ptrAux rest (some (.sp, s + 1)) = true := by
            rw [← ptrAux_acc_same (pSubPtr 1)]
            exact hptr
          have hs1 : s + 1 < 256 := ptrAux_bound rest .sp (s + 1) hptr'
          rw [optGo_acc_same (vSubPtr 1), Nat.mod_eq_of_lt hs1]
          exact emit_sp_fault rest (s + 1) st₀ (unitCounted_tail hu) hptr' (by omega)
        · rw [if_neg hle] at ha
          exact Option.noConfusion ha
      | ap =>
        rw [optGo_acc_diff (vSubPtr 1) (show ¬CVar.sp = CVar.ap by decide)]
        refine exec_pending .ap s st₀ st _ _ ha ?_
        have hptr' : ptrAux rest (some (.sp, 1)) = true := by
          have h2 := hptr
          rw [show accPtr (some (CVar.ap, s)) = some (CVar.ap, s) from rfl,
            ptrAux_acc_diff (pSubPtr 1) (show ¬CVar.sp = CVar.ap by decide)] at h2
          simp at h2
          exact h2.2
        exact emit_sp_fault rest 1 st (unitCounted_tail hu) hptr' (by omega)
      | av =>
        rw [optGo_acc_diff (vSubPtr 1) (show ¬CVar.sp = CVar.av by decide)]
        refine exec_pending .av s st₀ st _ _ ha ?_
        have hptr' : ptrAux rest (some (.sp, 1)) = true := by
          have h2 := hptr
          rw [show accPtr (some (CVar.av, s)) = none from rfl,
            ptrAux_cons_p (pSubPtr 1)] at h2
          exact h2
        exact emit_sp_fault rest 1 st (unitCounted_tail hu) hptr' (by omega)
      | sv =>
        rw [optGo_acc_diff (vSubPtr 1) (show ¬CVar.sp = CVar.sv by decide)]
        refine exec_pending .sv s st₀ st _ _ ha ?_
        have hptr' : ptrAux rest (some (.sp, 1)) = true := by
          have h2 := hptr
          rw [show accPtr (some (CVar.sv, s)) = none from rfl,
            ptrAux_cons_p (pSubPtr 1)] at h2
          exact h2
        exact emit_sp_fault rest 1 st (unitCounted_tail hu) hptr' (by omega)
  | @addVal x rest st r hr IH =>
    intro acc st₀ ha hb hu hbal hptr
    have hx : x = 1 := unitCounted_head hu (vAddVal x)
    subst hx
    cases acc with
    | none =>
      injection ha with ha
      subst ha
      rw [optGo_cons_c (vAddVal 1)]
      refine IH (some (.av, 1)) st₀ (accApply_av st₀ 1) (accBound_intro (by norm_num))
        (unitCounted_tail hu) hbal ?_
      rw [show accPtr (some (CVar.av, 1)) = none from rfl,
        ← ptrAux_cons_np (pAddVal 1)]
      exact hptr
    | some q =>
      obtain ⟨v, s⟩ := q
      cases v with
      | av =>
        rw [accApply_av] at ha
        injection ha with ha
        subst ha
        rw [optGo_acc_same (vAddVal 1)]
        refine IH (some (.av, (s + 1) % 256)) st₀ ?_
          (accBound_intro (Nat.mod_lt _ (by norm_num))) (unitCounted_tail hu) hbal ?_
        · rw [accApply_av, getCell_setCell, setCell_setCell]
          exact congrArg some (setCell_congr st₀ (by omega))
        · rw [show accPtr (some (CVar.av, (s + 1) % 256)) = none from rfl]
          rw [show accPtr (some (CVar.av, s)) = none from rfl] at hptr
          rw [← ptrAux_cons_np (pAddVal 1)]
          exact hptr
      | sv =>
        rw [optGo_acc_diff (vAddVal 1) (show ¬CVar.av = CVar.sv by decide)]
        refine exec_pending .sv s st₀ st r _ ha ?_
        have hptr' : ptrAux rest none = true := by
          rw [show accPtr (some (CVar.sv, s)) = none from rfl,
            ptrAux_cons_np (pAddVal 1)] at hptr
          exact hptr
        refine IH (some (.av, 1)) st (accApply_av st 1) (accBound_intro (by norm_num))
          (unitCounted_tail hu) hbal hptr'
      | ap =>
        rw [optGo_acc_diff (vAddVal 1) (show ¬CVar.av = CVar.ap by decide)]
        refine exec_pending .ap s st₀ st r _ ha ?_
        have hptr' : ptrAux rest none = true := by
          rw [show accPtr (some (CVar.ap, s)) = some (CVar.ap, s) from rfl,
            ptrAux_acc_np (pAddVal 1)] at hptr
          simp at hptr
          exact hptr.2
        exact IH (some (.av, 1)) st (accApply_av st 1) (accBound_intro (by norm_num))
          (unitCounted_tail hu) hbal hptr'
      | sp =>
        rw [optGo_acc_diff (vAddVal 1) (show ¬CVar.av = CVar.sp by decide)]
        refine exec_pending .sp s st₀ st r _ ha ?_
        have hptr' : ptrAux rest none = true := by
          rw [show accPtr (some (CVar.sp, s)) = some (CVar.sp, s) from rfl,
            ptrAux_acc_np (pAddVal 1)] at hptr
          simp at hptr
          exact hptr.2
        exact IH (some (.av, 1)) st (accApply_av st 1) (accBound_intro (by norm_num))
          (unitCounted_tail hu) hbal hptr'
  | @subVal x rest st r hr IH =>
    intro acc st₀ ha hb hu hbal hptr
    have hx : x = 1 := unitCounted_head hu (vSubVal x)
    subst hx
    cases acc with
    | none =>
      injection ha with ha
      subst ha
      rw [optGo_cons_c (vSubVal 1)]
      refine IH (some (.sv, 1)) st₀ (accApply_sv st₀ 1) (accBound_intro (by norm_num))
        (unitCounted_tail hu) hbal ?_
      rw [show accPtr (some (CVar.sv, 1)) = none from rfl,
        ← ptrAux_cons_np (pSubVal 1)]
      exact hptr
    | some q =>
      obtain ⟨v, s⟩ := q
      cases v with
      | sv =>
        rw [accApply_sv] at ha
        injection ha with ha
        subst ha
        rw [optGo_acc_same (vSubVal 1)]
        refine IH (some (.sv, (s + 1) % 256)) st₀ ?_
          (accBound_intro (Nat.mod_lt _ (by norm_num))) (unitCounted_tail hu) hbal ?_
        · rw [accApply_sv, getCell_setCell, setCell_setCell]
          exact congrArg some (setCell_congr st₀ (by omega))
        · rw [show accPtr (some (CVar.sv, (s + 1) % 256)) = none from rfl]
          rw [show accPtr (some (CVar.sv, s)) = none from rfl] at hptr
          rw [← ptrAux_cons_np (pSubVal 1)]
          exact hptr
      | av =>
        rw [optGo_acc_diff (vSubVal 1) (show ¬CVar.sv = CVar.av by decide)]
        refine exec_pending .av s st₀ st r _ ha ?_
        have hptr' : ptrAux rest none = true := by
          rw [show accPtr (some (CVar.av, s)) = none from rfl,
            ptrAux_cons_np (pSubVal 1)] at hptr
          exact hptr
        exact IH (some (.sv, 1)) st (accApply_sv st 1) (accBound_intro (by norm_num))
          (unitCounted_tail hu) hbal hptr'
      | ap =>
        rw [optGo_acc_diff (vSubVal 1) (show ¬CVar.sv = CVar.ap by decide)]
        refine exec_pending .ap s st₀ st r _ ha ?_
        have hptr' : ptrAux rest none = true := by
          rw [show accPtr (some (CVar.ap, s)) = some (CVar.ap, s) from rfl,
            ptrAux_acc_np (pSubVal 1)] at hptr
          simp at hptr
          exact hptr.2
        exact IH (some (.sv, 1)) st (accApply_sv st 1) (accBound_intro (by norm_num))
          (unitCounted_tail hu) hbal hptr'
      | sp =>
        rw [optGo_acc_diff (vSubVal 1) (show ¬CVar.sv = CVar.sp by decide)]
        refine exec_pending .sp s st₀ st r _ ha ?_
        have hptr' : ptrAux rest none = true := by
          rw [show accPtr (some (CVar.sp, s)) = some (CVar.sp, s) from rfl,
            ptrAux_acc_np (pSubVal 1)] at hptr
          simp at hptr
          exact hptr.2
        exact IH (some (.sv, 1)) st (accApply_sv st 1) (accBound_intro (by norm_num))
          (unitCounted_tail hu) hbal hptr'
  | @getEof rest st r h hr IH =>
    intro acc st₀ ha hb hu hbal hptr
    have hptr0 := ptrAux_none_of_acc pGetByte acc hptr
    have hptrR : ptrAux rest none = true := by
      rw [ptrAux_cons_np pGetByte] at hptr0
      exact hptr0
    have hcore : Exec (optGo (.GetByte :: rest) none) st r := by
      rw [optGo_cons_nc vGetByte]
      exact Exec.getEof h (IH none st rfl accBound_none (unitCounted_tail hu) hbal hptrR)
    cases acc with
    | none =>
      injection ha with ha
      subst ha
      exact hcore
    | some q =>
      obtain ⟨v, x⟩ := q
      rw [optGo_acc_nc vGetByte, ← optGo_cons_nc vGetByte]
      exact exec_pending v x st₀ st r _ ha hcore
  | @getOne b is rest st r h hr IH =>
    intro acc st₀ ha hb hu hbal hptr
    have hptr0 := ptrAux_none_of_acc pGetByte acc hptr
    have hptrR : ptrAux rest none = true := by
      rw [ptrAux_cons_np pGetByte] at hptr0
      exact hptr0
    have hcore : Exec (optGo (.GetByte :: rest) none) st r := by
      rw [optGo_cons_nc vGetByte]
      exact Exec.getOne h (IH none _ rfl accBound_none (unitCounted_tail hu) hbal hptrR)
    cases acc with
    | none =>
      injection ha with ha
      subst ha
      exact hcore
    | some q =>
      obtain ⟨v, x⟩ := q
      rw [optGo_acc_nc vGetByte, ← optGo_cons_nc vGetByte]
      exact exec_pending v x st₀ st r _ ha hcore
  | @getErr is rest st h =>
    intro acc st₀ ha hb hu hbal hptr
    have hcore : Exec (optGo (.GetByte :: rest) none) st (.ioError st) := by
      rw [optGo_cons_nc vGetByte]
      exact Exec.getErr h
    cases acc with
    | none =>
      injection ha with ha
      subst ha
      exact hcore
    | some q =>
      obtain ⟨v, x⟩ := q
      rw [optGo_acc_nc vGetByte, ← optGo_cons_nc vGetByte]
      exact exec_pending v x st₀ st _ _ ha hcore
  | @putB rest st r h hr IH =>
    intro acc st₀ ha hb hu hbal hptr
    have hptr0 := ptrAux_none_of_acc pPutByte acc hptr
    have hptrR : ptrAux rest none = true := by
      rw [ptrAux_cons_np pPutByte] at hptr0
      exact hptr0
    have hcore : Exec (optGo (.PutByte :: rest) none) st r := by
      rw [optGo_cons_nc vPutByte]
      exact Exec.putB h (IH none _ rfl accBound_none (unitCounted_tail hu) hbal hptrR)
    cases acc with
    | none =>
      injection ha with ha
      subst ha
      exact hcore
    | some q =>
      obtain ⟨v, x⟩ := q
      rw [optGo_acc_nc vPutByte, ← optGo_cons_nc vPutByte]
      exact exec_pending v x st₀ st r _ ha hcore
  | @putErr rest st h =>
    intro acc st₀ ha hb hu hbal hptr
    have hcore : Exec (optGo (.PutByte :: rest) none) st (.ioError st) := by
      rw [optGo_cons_nc vPutByte]
      exact Exec.putErr h
    cases acc with
    | none =>
      injection ha with ha
      subst ha
      exact hcore
    | some q =>
      obtain ⟨v, x⟩ := q
      rw [optGo_acc_nc vPutByte, ← optGo_cons_nc vPutByte]
      exact exec_pending v x st₀ st _ _ ha hcore
  | @jzSkip rest body after st r hs hz hr IH =>
    intro acc st₀ ha hb hu hbal hptr
    obtain ⟨b2, a2, hs2, heq, hbb, hba⟩ := bal_jz_split hbal
    rw [hs] at hs2
    injection hs2 with hs2
    injection hs2 with e1 e2
    subst e1
    subst e2
    have hptr0 := ptrAux_none_of_acc pJz acc hptr
    have hptrR : ptrAux rest none = true := by
      rw [ptrAux_cons_np pJz] at hptr0
      exact hptr0
    have hu2 : unitCounted (body ++ .Jnz :: after) = true := by
      rw [← heq]
      exact unitCounted_tail hu
    have hu3 : unitCounted after = true := by
      rw [unitCounted_append] at hu2
      simp at hu2
      exact unitCounted_tail hu2.2
    have hptrA : ptrAux after none = true := by
      refine ptrAux_suffix .Jnz rfl after body none ?_
      rw [← heq]
      exact hptrR
    have hcore : Exec (optGo (.Jz :: rest) none) st r :=
      jz_skip_core hs hz (IH none st rfl accBound_none hu3 hba hptrA)
    cases acc with
    | none =>
      injection ha with ha
      subst ha
      exact hcore
    | some q =>
      obtain ⟨v, x⟩ := q
      rw [optGo_acc_nc vJz, ← optGo_cons_nc vJz]
      exact exec_pending v x st₀ st r _ ha hcore
  | @jzLoop rest body after st r hs hz hr IH =>
    intro acc st₀ ha hb hu hbal hptr
    obtain ⟨b2, a2, hs2, heq, hbb, hba⟩ := bal_jz_split hbal
    rw [hs] at hs2
    injection hs2 with hs2
    injection hs2 with e1 e2
    subst e1
    subst e2
    have hptr0 := ptrAux_none_of_acc pJz acc hptr
    have hptrR : ptrAux rest none = true := by
      rw [ptrAux_cons_np pJz] at hptr0
      exact hptr0
    have hu2 : unitCounted (body ++ .Jnz :: after) = true := by
      rw [← heq]
      exact unitCounted_tail hu
    have hubody : unitCounted body = true := by
      rw [unitCounted_append] at hu2
      simp at hu2
      exact hu2.1
    have huLoop : unitCounted (body ++ .Jz :: rest) = true := by
      rw [unitCounted_append]
      simp [hubody, hu]
    have hbalLoop : balCheckPartial (body ++ .Jz :: rest) 0 = some 0 := by
      rw [balCheckPartial_append, hbb]
      simpa using hbal
    have hptrB : ptrAux body none = true := by
      refine ptrAux_prefix (.Jnz :: after) body none ?_
      rw [← heq]
      exact hptrR
    have hptrLoop : ptrAux (body ++ .Jz :: rest) none = true :=
      ptrAux_glue .Jz rfl rest hptrR body none hptrB
    have hcore : Exec (optGo (.Jz :: rest) none) st r :=
      jz_loop_core hs hz
        (IH none st rfl accBound_none huLoop hbalLoop hptrLoop)
    cases acc with
    | none =>
      injection ha with ha
      subst ha
      exact hcore
    | some q =>
      obtain ⟨v, x⟩ := q
      rw [optGo_acc_nc vJz, ← optGo_cons_nc vJz]
      exact exec_pending v x st₀ st r _ ha hcore

/-! ## Reverse simulation: support lemmas -/

theorem optGo_eq_nil {code : List BfIR} {acc : Option (CVar × Nat)}
    (h : optGo code acc = []) : code = [] ∧ acc = none := by
  cases code with
  | nil =>
    cases acc with
    | none => exact ⟨rfl, rfl⟩
    | some q =>
      obtain ⟨v, x⟩ := q
      exact List.noConfusion h
  | cons c cs =>
    cases hv : variantOf c with
    | none =>
      cases acc with
      | none =>
        rw [optGo_cons_nc hv] at h
        exact List.noConfusion h
      | some q =>
        obtain ⟨v, x⟩ := q
        rw [optGo_acc_nc hv] at h
        exact List.noConfusion h
    | some p =>
      obtain ⟨w, n⟩ := p
      cases acc with
      | none =>
        rw [optGo_cons_c hv] at h
        obtain ⟨m, tl, htl⟩ := optGo_some_head cs w n
        rw [htl] at h
        exact List.noConfusion h
      | some q =>
        obtain ⟨v, x⟩ := q
        by_cases hw : w = v
        · subst hw
          rw [optGo_acc_same hv] at h
          obtain ⟨m, tl, htl⟩ := optGo_some_head cs w ((x + n) % 256)
          rw [htl] at h
          exact List.noConfusion h
        · rw [optGo_acc_diff hv hw] at h
          exact List.noConfusion h

theorem takeRun_replicate (v : CVar) : ∀ (k : Nat) (rest' : List BfIR),
    headVar rest' ≠ some v →
    takeRun v (List.replicate k (mkC v 1) ++ rest') = (k, rest') := by
  intro k
  induction k with
  | zero =>
    intro rest' hhd
    rw [List.replicate_zero, List.nil_append]
    cases rest' with
    | nil => rfl
    | cons c cs =>
      cases hv : variantOf c with
      | none => exact takeRun_cons_none hv v cs
      | some p =>
        obtain ⟨w, n⟩ := p
        have hw : ¬w = v := by
          intro he
          exact hhd (by simp [headVar, hv, he])
        exact takeRun_cons_diff hv hw cs
  | succ k ih =>
    intro rest' hhd
    rw [List.replicate_succ, List.cons_append, takeRun_cons_same (variantOf_mkC v 1),
      ih rest' hhd]

theorem accPtr_ptr {v : CVar} (hv : cvarIsPtr v = true) (s : Nat) :
    accPtr (some (v, s)) = some (v, s) := by
  cases v with
  | ap => rfl
  | sp => rfl
  | av => exact Bool.noConfusion hv
  | sv => exact Bool.noConfusion hv

theorem bal_replicate (v : CVar) : ∀ (k : Nat) (rest : List BfIR) (d : Nat),
    balCheckPartial (List.replicate k (mkC v 1) ++ rest) d = balCheckPartial rest d := by
  intro k
  induction k with
  | zero => intro rest d; rw [List.replicate_zero, List.nil_append]
  | succ k ih =>
    intro rest d
    rw [List.replicate_succ, List.cons_append, bal_cons_counted (variantOf_mkC v 1), ih]

theorem run_sum_bound (vp : CVar) (hvp : cvarIsPtr vp = true)
    (code rest' : List BfIR) (k s : Nat) (acc : Option (CVar × Nat))
    (hdec : code = List.replicate k (mkC vp 1) ++ rest')
    (hhd : headVar rest' ≠ some vp)
    (hu : unitCounted code = true)
    (hptr : ptrAux code (accPtr acc) = true)
    (hacc : acc = some (vp, s) ∨ (acc = none ∧ s = 0 ∧ 1 ≤ k)) :
    s + k < 256 := by
  rcases hacc with rfl | ⟨rfl, rfl, hk⟩
  · rw [accPtr_ptr hvp] at hptr
    have hrun := ptrAux_run vp hvp code s hu hptr
    rw [hdec, takeRun_replicate vp k rest' hhd] at hrun
    simpa using hrun
  · subst hdec
    cases k with
    | zero => omega
    | succ kp =>
      rw [List.replicate_succ, List.cons_append] at hptr hu
      have hpm : ptrVarOf (mkC vp 1) = some (vp, 1) := by
        rw [ptrVarOf_variant (variantOf_mkC vp 1), if_pos hvp]
      rw [show accPtr none = none from rfl, ptrAux_cons_p hpm] at hptr
      have hrun := ptrAux_run vp hvp _ 1 (unitCounted_tail hu) hptr
      rw [takeRun_replicate vp kp rest' hhd] at hrun
      simp at hrun
      omega

theorem view_conds (v : CVar) (code rest' : List BfIR) (k : Nat)
    (acc : Option (CVar × Nat)) (s : Nat)
    (hdec : code = List.replicate k (mkC v 1) ++ rest')
    (hu : unitCounted code = true)
    (hbal : balCheckPartial code 0 = some 0)
    (hptr : ptrAux code (accPtr acc) = true)
    (hacc : acc = some (v, s) ∨ acc = none)
    (hhd : headVar rest' ≠ some v) :
    unitCounted rest' = true ∧ balCheckPartial rest' 0 = some 0 ∧
      ptrAux rest' none = true := by
  subst hdec
  refine ⟨?_, ?_, ?_⟩
  · rw [unitCounted_append] at hu
    simp at hu
    exact hu.2
  · rw [bal_replicate] at hbal
    exact hbal
  · cases hcp : cvarIsPtr v with
    | false =>
      have hane : accPtr acc = none := by
        rcases hacc with rfl | rfl
        · cases v with
          | av => rfl
          | sv => rfl
          | ap => exact Bool.noConfusion hcp
          | sp => exact Bool.noConfusion hcp
        · rfl
      rw [hane, ptrAux_replicate_val v hcp] at hptr
      exact hptr
    | true =>
      rcases hacc with rfl | rfl
      · rw [accPtr_ptr hcp, ptrAux_replicate_ptr v hcp] at hptr
        exact ptrAux_drop_acc rest' v (s + k) hhd hptr
      · cases k with
        | zero => simpa using hptr
        | succ kp =>
          have hpm : ptrVarOf (mkC v 1) = some (v, 1) := by
            rw [ptrVarOf_variant (variantOf_mkC v 1), if_pos hcp]
          rw [List.replicate_succ, List.cons_append, show accPtr none = none from rfl,
            ptrAux_cons_p hpm, ptrAux_replicate_ptr v hcp] at hptr
          exact ptrAux_drop_acc rest' v (1 + kp) hhd hptr

theorem optGo_cases (code : List BfIR) (acc : Option (CVar × Nat))
    (hu : unitCounted code = true) (hb : ∀ v s, acc = some (v, s) → s < 256) :
    (code = [] ∧ acc = none) ∨
    (∃ v s k rest', code = List.replicate k (mkC v 1) ++ rest' ∧
      headVar rest' ≠ some v ∧
      optGo code acc = mkC v ((s + k) % 256) :: optGo rest' none ∧
      (acc = some (v, s) ∨ (acc = none ∧ s = 0 ∧ 1 ≤ k))) ∨
    (∃ b cs, code = b :: cs ∧ variantOf b = none ∧ acc = none ∧
      optGo code acc = b :: optGo cs none) := by
  cases acc with
  | some q =>
    obtain ⟨v, s⟩ := q
    refine Or.inr (Or.inl ⟨v, s, (takeRun v code).1, (takeRun v code).2, ?_, ?_, ?_, Or.inl rfl⟩)
    · exact (takeRun_decomp v code hu).1
    · exact (takeRun_decomp v code hu).2
    · exact optGo_norm v code s hu (hb v s rfl)
  | none =>
    cases code with
    | nil => exact Or.inl ⟨rfl, rfl⟩
    | cons c cs =>
      cases hv : variantOf c with
      | none => exact Or.inr (Or.inr ⟨c, cs, rfl, hv, rfl, optGo_cons_nc hv cs⟩)
      | some p =>
        obtain ⟨w, n⟩ := p
        have hn := unitCounted_head hu hv
        subst hn
        refine Or.inr (Or.inl ⟨w, 0, (takeRun w (c :: cs)).1, (takeRun w (c :: cs)).2,
          ?_, ?_, ?_, Or.inr ⟨rfl, rfl, ?_⟩⟩)
        · exact (takeRun_decomp w (c :: cs) hu).1
        · exact (takeRun_decomp w (c :: cs) hu).2
        · rw [optGo_cons_c hv,
            optGo_norm w cs 1 (unitCounted_tail hu) (by norm_num),
            takeRun_cons_same hv]
          have heq : (1 + (takeRun w cs).1) % 256 =
              (0 + ((takeRun w cs).1 + 1)) % 256 := by omega
          rw [heq]
        · rw [takeRun_cons_same hv]
          omega

theorem exec_repl_ap : ∀ (k : Nat) (rest : List BfIR) (st : St) (r : Res),
    st.ptr + k < MEMORY_SIZE → Exec rest { st with ptr := st.ptr + k } r →
    Exec (List.replicate k (.AddPtr 1) ++ rest) st r := by
  intro k
  induction k with
  | zero =>
    intro rest st r _ hc
    rw [List.replicate_zero, List.nil_append]
    exact hc
  | succ k ih =>
    intro rest st r hlt hc
    rw [List.replicate_succ, List.cons_append]
    refine Exec.addPtrOk (by omega) ?_
    have heq : st.ptr + (k + 1) = st.ptr + 1 + k := by omega
    rw [heq] at hc
    exact ih rest _ r (by show st.ptr + 1 + k < MEMORY_SIZE; omega) hc

theorem exec_repl_ap_fault : ∀ (k : Nat) (rest : List BfIR) (st : St),
    MEMORY_SIZE ≤ st.ptr + k → 1 ≤ k →
    Exec (List.replicate k (.AddPtr 1) ++ rest) st (.overflow st.output) := by
  intro k
  induction k with
  | zero =>
    intro rest st _ hk
    omega
  | succ k ih =>
    intro rest st hof _
    rw [List.replicate_succ, List.cons_append]
    by_cases hlt : st.ptr + 1 < MEMORY_SIZE
    · refine Exec.addPtrOk hlt ?_
      cases k with
      | zero => omega
      | succ k2 =>
        exact ih rest _ (by show MEMORY_SIZE ≤ st.ptr + 1 + (k2 + 1); omega) (by omega)
    · exact Exec.addPtrOver (by omega)

theorem exec_repl_sp : ∀ (k : Nat) (rest : List BfIR) (st : St) (r : Res),
    k ≤ st.ptr → Exec rest { st with ptr := st.ptr - k } r →
    Exec (List.replicate k (.SubPtr 1) ++ rest) st r := by
  intro k
  induction k with
  | zero =>
    intro rest st r _ hc
    rw [List.replicate_zero, List.nil_append]
    exact hc
  | succ k ih =>
    intro rest st r hle hc
    rw [List.replicate_succ, List.cons_append]
    refine Exec.subPtrOk (by omega) ?_
    have heq : st.ptr - (k + 1) = st.ptr - 1 - k := by omega
    rw [heq] at hc
    exact ih rest _ r (by show k ≤ st.ptr - 1; omega) hc

theorem exec_repl_sp_fault : ∀ (k : Nat) (rest : List BfIR) (st : St),
    st.ptr < k →
    Exec (List.replicate k (.SubPtr 1) ++ rest) st (.overflow st.output) := by
  intro k
  induction k with
  | zero =>
    intro rest st h0
    omega
  | succ k ih =>
    intro rest st hof
    rw [List.replicate_succ, List.cons_append]
    by_cases hle : 1 ≤ st.ptr
    · refine Exec.subPtrOk hle ?_
      exact ih rest _ (by show ({ st with ptr := st.ptr - 1 } : St).ptr < k; show st.ptr - 1 < k; omega)
    · exact Exec.subPtrOver (by omega)

theorem exec_repl_av : ∀ (k : Nat) (rest : List BfIR) (st : St) (r : Res), 1 ≤ k →
    Exec rest (setCell st ((getCell st + k) % 256)) r →
    Exec (List.replicate k (.AddVal 1) ++ rest) st r := by
  intro k
  induction k with
  | zero =>
    intro rest st r h0 _
    omega
  | succ k ih =>
    intro rest st r _ hc
    rw [List.replicate_succ, List.cons_append]
    refine Exec.addVal ?_
    cases k with
    | zero =>
      rw [List.replicate_zero, List.nil_append]
      exact hc
    | succ k2 =>
      refine ih rest _ r (by omega) ?_
      rw [getCell_setCell, setCell_setCell]
      have heq : ((getCell st + 1) % 256 + (k2 + 1)) % 256 =
          (getCell st + (k2 + 1 + 1)) % 256 := by omega
      rw [heq]
      exact hc

theorem exec_repl_sv : ∀ (k : Nat) (rest : List BfIR) (st : St) (r : Res), 1 ≤ k →
    Exec rest (setCell st ((getCell st + 255 * k) % 256)) r →
    Exec (List.replicate k (.SubVal 1) ++ rest) st r := by
  intro k
  induction k with
  | zero =>
    intro rest st r h0 _
    omega
  | succ k ih =>
    intro rest st r _ hc
    rw [List.replicate_succ, List.cons_append]
    refine Exec.subVal ?_
    cases k with
    | zero =>
      rw [List.replicate_zero, List.nil_append]
      have heq : (getCell st + 255 * 1) % 256 =
          (getCell st + (256 - 1 % 256)) % 256 := by omega
      rw [heq] at hc
      exact hc
    | succ k2 =>
      refine ih rest _ r (by omega) ?_
      rw [getCell_setCell, setCell_setCell]
      have heq : ((getCell st + (256 - 1 % 256)) % 256 + 255 * (k2 + 1)) % 256 =
          (getCell st + 255 * (k2 + 1 + 1)) % 256 := by omega
      rw [heq]
      exact hc

/-- Reverse simulation of the optimizer fold: a run of the folded IR from the
pre-pending state is also a run of the source IR from the state reached by the
pending folded instruction, with the same result. -/
theorem exec_unfold {cf : List BfIR} {stp : St} {r : Res} (d : Exec cf stp r) :
    ∀ (code : List BfIR) (acc : Option (CVar × Nat)) (st : St),
      optGo code acc = cf →
      accApply acc stp = some st →
      (∀ v s, acc = some (v, s) → s < 256) →
      unitCounted code = true →
      balCheckPartial code 0 = some 0 →
      ptrAux code (accPtr acc) = true →
      Exec code st r := by
  induction d with
  | nil stn =>
    intro code acc st hopt ha hb hu hbal hptr
    obtain ⟨rfl, rfl⟩ := optGo_eq_nil hopt
    injection ha with ha
    subst ha
    exact Exec.nil _
  | @addPtrOk x tail stp r h hr IH =>
    intro code acc st hopt ha hb hu hbal hptr
    rcases optGo_cases code acc hu hb with ⟨rfl, rfl⟩ |
      ⟨v, s, k, rest', hdec, hhd, hnorm, hacc⟩ | ⟨b, cs, rfl, hv, rfl, hnorm⟩
    · exact List.noConfusion hopt
    · rw [hnorm] at hopt
      injection hopt with h1 h2
      cases v with
      | av => exact BfIR.noConfusion h1
      | sv => exact BfIR.noConfusion h1
      | sp => exact BfIR.noConfusion h1
      | ap =>
        injection h1 with h1
        have hsum : s + k < 256 := run_sum_bound .ap rfl code rest' k s acc hdec hhd hu hptr hacc
        rw [Nat.mod_eq_of_lt hsum] at h1
        subst h1
        obtain ⟨hu', hbal', hptr'⟩ := view_conds .ap code rest' k acc s hdec hu hbal hptr
          (by rcases hacc with h4 | ⟨h4, -, -⟩; exacts [Or.inl h4, Or.inr h4]) hhd
        rcases hacc with rfl | ⟨rfl, rfl, hk1⟩
        · simp only [accApply] at ha
          by_cases hlt : stp.ptr + s < MEMORY_SIZE
          · rw [if_pos hlt] at ha
            injection ha with ha
            subst ha
            rw [hdec]
            have h' : stp.ptr + (s + k) < MEMORY_SIZE := h
            refine exec_repl_ap k rest' _ r (by show stp.ptr + s + k < MEMORY_SIZE; omega) ?_
            have heq : ({ stp with ptr := stp.ptr + s } : St).ptr + k = stp.ptr + (s + k) := by
              show stp.ptr + s + k = stp.ptr + (s + k)
              omega
            rw [heq]
            exact IH rest' none _ h2 rfl accBound_none hu' hbal' hptr'
          · rw [if_neg hlt] at ha
            exact Option.noConfusion ha
        · injection ha with ha
          subst ha
          rw [hdec]
          have h' : stp.ptr + (0 + k) < MEMORY_SIZE := h
          refine exec_repl_ap k rest' stp r (by omega) ?_
          have heq : stp.ptr + k = stp.ptr + (0 + k) := by omega
          rw [heq]
          exact IH rest' none _ h2 rfl accBound_none hu' hbal' hptr'
    · rw [hnorm] at hopt
      injection hopt with hb1 hb2
      rw [hb1] at hv
      exact Option.noConfusion hv
  | @addPtrOver x tail stp h =>
    intro code acc st hopt ha hb hu hbal hptr
    rcases optGo_cases code acc hu hb with ⟨rfl, rfl⟩ |
      ⟨v, s, k, rest', hdec, hhd, hnorm, hacc⟩ | ⟨b, cs, rfl, hv, rfl, hnorm⟩
    · exact List.noConfusion hopt
    · rw [hnorm] at hopt
      injection hopt with h1 h2
      cases v with
      | av => exact BfIR.noConfusion h1
      | sv => exact BfIR.noConfusion h1
      | sp => exact BfIR.noConfusion h1
      | ap =>
        injection h1 with h1
        have hsum : s + k < 256 := run_sum_bound .ap rfl code rest' k s acc hdec hhd hu hptr hacc
        rw [Nat.mod_eq_of_lt hsum] at h1
        subst h1
        rcases hacc with rfl | ⟨rfl, rfl, hk1⟩
        · simp only [accApply] at ha
          by_cases hlt : stp.ptr + s < MEMORY_SIZE
          · rw [if_pos hlt] at ha
            injection ha with ha
            subst ha
            rw [hdec]
            have h' : MEMORY_SIZE ≤ stp.ptr + (s + k) := h
            exact exec_repl_ap_fault k rest' _
              (by show MEMORY_SIZE ≤ stp.ptr + s + k; omega) (by omega)
          · rw [if_neg hlt] at ha
            exact Option.noConfusion ha
        · injection ha with ha
          subst ha
          rw [hdec]
          have h' : MEMORY_SIZE ≤ stp.ptr + (0 + k) := h
          exact exec_repl_ap_fault k rest' stp (by omega) (by omega)
    · rw [hnorm] at hopt
      injection hopt with hb1 hb2
      rw [hb1] at hv
      exact Option.noConfusion hv
  | @subPtrOk x tail stp r h hr IH =>
    intro code acc st hopt ha hb hu hbal hptr
    rcases optGo_cases code acc hu hb with ⟨rfl, rfl⟩ |
      ⟨v, s, k, rest', hdec, hhd, hnorm, hacc⟩ | ⟨b, cs, rfl, hv, rfl, hnorm⟩
    · exact List.noConfusion hopt
    · rw [hnorm] at hopt
      injection hopt with h1 h2
      cases v with
      | av => exact BfIR.noConfusion h1
      | sv => exact BfIR.noConfusion h1
      | ap => exact BfIR.noConfusion h1
      | sp =>
        injection h1 with h1
        have hsum : s + k < 256 := run_sum_bound .sp rfl code rest' k s acc hdec hhd hu hptr hacc
        rw [Nat.mod_eq_of_lt hsum] at h1
        subst h1
        obtain ⟨hu', hbal', hptr'⟩ := view_conds .sp code rest' k acc s hdec hu hbal hptr
          (by rcases hacc with h4 | ⟨h4, -, -⟩; exacts [Or.inl h4, Or.inr h4]) hhd
        rcases hacc with rfl | ⟨rfl, rfl, hk1⟩
        · simp only [accApply] at ha
          by_cases hle : s ≤ stp.ptr
          · rw [if_pos hle] at ha
            injection ha with ha
            subst ha
            rw [hdec]
            have h' : s + k ≤ stp.ptr := h
            refine exec_repl_sp k rest' _ r (by show k ≤ stp.ptr - s; omega) ?_
            have heq : ({ stp with ptr := stp.ptr - s } : St).ptr - k = stp.ptr - (s + k) := by
              show stp.ptr - s - k = stp.ptr - (s + k)
              omega
            rw [heq]
            exact IH rest' none _ h2 rfl accBound_none hu' hbal' hptr'
          · rw [if_neg hle] at ha
            exact Option.noConfusion ha
        · injection ha with ha
          subst ha
          rw [hdec]
          have h' : 0 + k ≤ stp.ptr := h
          refine exec_repl_sp k rest' stp r (by omega) ?_
          have heq : stp.ptr - k = stp.ptr - (0 + k) := by omega
          rw [heq]
          exact IH rest' none _ h2 rfl accBound_none hu' hbal' hptr'
    · rw [hnorm] at hopt
      injection hopt with hb1 hb2
      rw [hb1] at hv
      exact Option.noConfusion hv
  | @subPtrOver x tail stp h =>
    intro code acc st hopt ha hb hu hbal hptr
    rcases optGo_cases code acc hu hb with ⟨rfl, rfl⟩ |
      ⟨v, s, k, rest', hdec, hhd, hnorm, hacc⟩ | ⟨b, cs, rfl, hv, rfl, hnorm⟩
    · exact List.noConfusion hopt
    · rw [hnorm] at hopt
      injection hopt with h1 h2
      cases v with
      | av => exact BfIR.noConfusion h1
      | sv => exact BfIR.noConfusion h1
      | ap => exact BfIR.noConfusion h1
      | sp =>
        injection h1 with h1
        have hsum : s + k < 256 := run_sum_bound .sp rfl code rest' k s acc hdec hhd hu hptr hacc
        rw [Nat.mod_eq_of_lt hsum] at h1
        subst h1
        rcases hacc with rfl | ⟨rfl, rfl, hk1⟩
        · simp only [accApply] at ha
          by_cases hle : s ≤ stp.ptr
          · rw [if_pos hle] at ha
            injection ha with ha
            subst ha
            rw [hdec]
            have h' : stp.ptr < s + k := h
            exact exec_repl_sp_fault k rest' _ (by show stp.ptr - s < k; omega)
          · rw [if_neg hle] at ha
            exact Option.noConfusion ha
        · injection ha with ha
          subst ha
          rw [hdec]
          have h' : stp.ptr < 0 + k := h
          exact exec_repl_sp_fault k rest' stp (by omega)
    · rw [hnorm] at hopt
      injection hopt with hb1 hb2
      rw [hb1] at hv
      exact Option.noConfusion hv
  | @addVal x tail stp r hr IH =>
    intro code acc st hopt ha hb hu hbal hptr
    rcases optGo_cases code acc hu hb with ⟨rfl, rfl⟩ |
      ⟨v, s, k, rest', hdec, hhd, hnorm, hacc⟩ | ⟨b, cs, rfl, hv, rfl, hnorm⟩
    · exact List.noConfusion hopt
    · rw [hnorm] at hopt
      injection hopt with h1 h2
      cases v with
      | sv => exact BfIR.noConfusion h1
      | ap => exact BfIR.noConfusion h1
      | sp => exact BfIR.noConfusion h1
      | av =>
        injection h1 with h1
        obtain ⟨hu', hbal', hptr'⟩ := view_conds .av code rest' k acc s hdec hu hbal hptr
          (by rcases hacc with h4 | ⟨h4, -, -⟩; exacts [Or.inl h4, Or.inr h4]) hhd
        rcases hacc with rfl | ⟨rfl, rfl, hk1⟩
        · have hs : s < 256 := hb .av s rfl
          rw [accApply_av] at ha
          injection ha with ha
          subst ha
          cases k with
          | zero =>
            rw [hdec, List.replicate_zero, List.nil_append]
            have hx : x = s := by omega
            subst hx
            exact IH rest' none _ h2 rfl accBound_none hu' hbal' hptr'
          | succ k2 =>
            rw [hdec]
            refine exec_repl_av (k2 + 1) rest' _ r (by omega) ?_
            rw [getCell_setCell, setCell_setCell]
            have heq : ((getCell stp + s) % 256 + (k2 + 1)) % 256 =
                (getCell stp + x) % 256 := by omega
            rw [heq]
            exact IH rest' none _ h2 rfl accBound_none hu' hbal' hptr'
        · injection ha with ha
          subst ha
          cases k with
          | zero => omega
          | succ k2 =>
            rw [hdec]
            refine exec_repl_av (k2 + 1) rest' stp r (by omega) ?_
            have heq : (getCell stp + (k2 + 1)) % 256 = (getCell stp + x) % 256 := by omega
            rw [heq]
            exact IH rest' none _ h2 rfl accBound_none hu' hbal' hptr'
    · rw [hnorm] at hopt
      injection hopt with hb1 hb2
      rw [hb1] at hv
      exact Option.noConfusion hv
  | @subVal x tail stp r hr IH =>
    intro code acc st hopt ha hb hu hbal hptr
    rcases optGo_cases code acc hu hb with ⟨rfl, rfl⟩ |
      ⟨v, s, k, rest', hdec, hhd, hnorm, hacc⟩ | ⟨b, cs, rfl, hv, rfl, hnorm⟩
    · exact List.noConfusion hopt
    · rw [hnorm] at hopt
      injection hopt with h1 h2
      cases v with
      | av => exact BfIR.noConfusion h1
      | ap => exact BfIR.noConfusion h1
      | sp => exact BfIR.noConfusion h1
      | sv =>
        injection h1 with h1
        obtain ⟨hu', hbal', hptr'⟩ := view_conds .sv code rest' k acc s hdec hu hbal hptr
          (by rcases hacc with h4 | ⟨h4, -, -⟩; exacts [Or.inl h4, Or.inr h4]) hhd
        rcases hacc with rfl | ⟨rfl, rfl, hk1⟩
        · have hs : s < 256 := hb .sv s rfl
          rw [accApply_sv] at ha
          injection ha with ha
          subst ha
          cases k with
          | zero =>
            rw [hdec, List.replicate_zero, List.nil_append]
            have hx : x = s := by omega
            subst hx
            exact IH rest' none _ h2 rfl accBound_none hu' hbal' hptr'
          | succ k2 =>
            rw [hdec]
            refine exec_repl_sv (k2 + 1) rest' _ r (by omega) ?_
            rw [getCell_setCell, setCell_setCell]
            have heq : ((getCell stp + (256 - s % 256)) % 256 + 255 * (k2 + 1)) % 256 =
                (getCell stp + (256 - x % 256)) % 256 := by omega
            rw [heq]
            exact IH rest' none _ h2 rfl accBound_none hu' hbal' hptr'
        · injection ha with ha
          subst ha
          cases k with
          | zero => omega
          | succ k2 =>
            rw [hdec]
            refine exec_repl_sv (k2 + 1) rest' stp r (by omega) ?_
            have heq : (getCell stp + 255 * (k2 + 1)) % 256 =
                (getCell stp + (256 - x % 256)) % 256 := by omega
            rw [heq]
            exact IH rest' none _ h2 rfl accBound_none hu' hbal' hptr'
    · rw [hnorm] at hopt
      injection hopt with hb1 hb2
      rw [hb1] at hv
      exact Option.noConfusion hv
  | @getEof tail stp r h hr IH =>
    intro code acc st hopt ha hb hu hbal hptr
    rcases optGo_cases code acc hu hb with ⟨rfl, rfl⟩ |
      ⟨v, s, k, rest', hdec, hhd, hnorm, hacc⟩ | ⟨b, cs, rfl, hv, rfl, hnorm⟩
    · exact List.noConfusion hopt
    · rw [hnorm] at hopt
      injection hopt with h1 h2
      cases v <;> exact BfIR.noConfusion h1
    · rw [hnorm] at hopt
      injection hopt with hb1 hb2
      subst hb1
      injection ha with ha
      subst ha
      replace hptr : ptrAux (BfIR.GetByte :: cs) none = true := hptr
      rw [ptrAux_cons_np pGetByte] at hptr
      exact Exec.getEof h (IH cs none stp hb2 rfl accBound_none (unitCounted_tail hu) hbal hptr)
  | @getOne bb isv tail stp r h hr IH =>
    intro code acc st hopt ha hb hu hbal hptr
    rcases optGo_cases code acc hu hb with ⟨rfl, rfl⟩ |
      ⟨v, s, k, rest', hdec, hhd, hnorm, hacc⟩ | ⟨b, cs, rfl, hv, rfl, hnorm⟩
    · exact List.noConfusion hopt
    · rw [hnorm] at hopt
      injection hopt with h1 h2
      cases v <;> exact BfIR.noConfusion h1
    · rw [hnorm] at hopt
      injection hopt with hb1 hb2
      subst hb1
      injection ha with ha
      subst ha
      replace hptr : ptrAux (BfIR.GetByte :: cs) none = true := hptr
      rw [ptrAux_cons_np pGetByte] at hptr
      exact Exec.getOne h (IH cs none _ hb2 rfl accBound_none (unitCounted_tail hu) hbal hptr)
  | @getErr isv tail stp h =>
    intro code acc st hopt ha hb hu hbal hptr
    rcases optGo_cases code acc hu hb with ⟨rfl, rfl⟩ |
      ⟨v, s, k, rest', hdec, hhd, hnorm, hacc⟩ | ⟨b, cs, rfl, hv, rfl, hnorm⟩
    · exact List.noConfusion hopt
    · rw [hnorm] at hopt
      injection hopt with h1 h2
      cases v <;> exact BfIR.noConfusion h1
    · rw [hnorm] at hopt
      injection hopt with hb1 hb2
      subst hb1
      injection ha with ha
      subst ha
      exact Exec.getErr h
  | @putB tail stp r h hr IH =>
    intro code acc st hopt ha hb hu hbal hptr
    rcases optGo_cases code acc hu hb with ⟨rfl, rfl⟩ |
      ⟨v, s, k, rest', hdec, hhd, hnorm, hacc⟩ | ⟨b, cs, rfl, hv, rfl, hnorm⟩
    · exact List.noConfusion hopt
    · rw [hnorm] at hopt
      injection hopt with h1 h2
      cases v <;> exact BfIR.noConfusion h1
    · rw [hnorm] at hopt
      injection hopt with hb1 hb2
      subst hb1
      injection ha with ha
      subst ha
      replace hptr : ptrAux (BfIR.PutByte :: cs) none = true := hptr
      rw [ptrAux_cons_np pPutByte] at hptr
      exact Exec.putB h (IH cs none _ hb2 rfl accBound_none (unitCounted_tail hu) hbal hptr)
  | @putErr tail stp h =>
    intro code acc st hopt ha hb hu hbal hptr
    rcases optGo_cases code acc hu hb with ⟨rfl, rfl⟩ |
      ⟨v, s, k, rest', hdec, hhd, hnorm, hacc⟩ | ⟨b, cs, rfl, hv, rfl, hnorm⟩
    · exact List.noConfusion hopt
    · rw [hnorm] at hopt
      injection hopt with h1 h2
      cases v <;> exact BfIR.noConfusion h1
    · rw [hnorm] at hopt
      injection hopt with hb1 hb2
      subst hb1
      injection ha with ha
      subst ha
      exact Exec.putErr h
  | @jzSkip tail B A stp r hs' hz hr IH =>
    intro code acc st hopt ha hb hu hbal hptr
    rcases optGo_cases code acc hu hb with ⟨rfl, rfl⟩ |
      ⟨v, s, k, rest', hdec, hhd, hnorm, hacc⟩ | ⟨b, cs, rfl, hv, rfl, hnorm⟩
    · exact List.noConfusion hopt
    · rw [hnorm] at hopt
      injection hopt with h1 h2
      cases v <;> exact BfIR.noConfusion h1
    · rw [hnorm] at hopt
      injection hopt with hb1 hb2
      subst hb1
      injection ha with ha
      subst ha
      obtain ⟨body, after, hsm, heq, hbb, hba⟩ := bal_jz_split hbal
      have hsm2 := optGo_splitMatch hsm
      rw [hb2, hs'] at hsm2
      injection hsm2 with hsm2
      injection hsm2 with e1 e2
      replace hptr : ptrAux (BfIR.Jz :: cs) none = true := hptr
      rw [ptrAux_cons_np pJz] at hptr
      have hu2 : unitCounted (body ++ .Jnz :: after) = true := by
        rw [← heq]
        exact unitCounted_tail hu
      have hu3 : unitCounted after = true := by
        rw [unitCounted_append] at hu2
        simp at hu2
        exact unitCounted_tail hu2.2
      have hptrA : ptrAux after none = true := by
        refine ptrAux_suffix .Jnz rfl after body none ?_
        rw [← heq]
        exact hptr
      exact Exec.jzSkip hsm hz (IH after none stp e2.symm rfl accBound_none hu3 hba hptrA)
  | @jzLoop tail B A stp r hs' hz hr IH =>
    intro code acc st hopt ha hb hu hbal hptr
    rcases optGo_cases code acc hu hb with ⟨rfl, rfl⟩ |
      ⟨v, s, k, rest', hdec, hhd, hnorm, hacc⟩ | ⟨b, cs, rfl, hv, rfl, hnorm⟩
    · exact List.noConfusion hopt
    · rw [hnorm] at hopt
      injection hopt with h1 h2
      cases v <;> exact BfIR.noConfusion h1
    · rw [hnorm] at hopt
      injection hopt with hb1 hb2
      subst hb1
      injection ha with ha
      subst ha
      obtain ⟨body, after, hsm, heq, hbb, hba⟩ := bal_jz_split hbal
      have hsm2 := optGo_splitMatch hsm
      rw [hb2, hs'] at hsm2
      injection hsm2 with hsm2
      injection hsm2 with e1 e2
      replace hptr : ptrAux (BfIR.Jz :: cs) none = true := hptr
      rw [ptrAux_cons_np pJz] at hptr
      have hu2 : unitCounted (body ++ .Jnz :: after) = true := by
        rw [← heq]
        exact unitCounted_tail hu
      have hubody : unitCounted body = true := by
        rw [unitCounted_append] at hu2
        simp at hu2
        exact hu2.1
      have huLoop : unitCounted (body ++ .Jz :: cs) = true := by
        rw [unitCounted_append]
        simp [hubody, hu]
      have hbalLoop : balCheckPartial (body ++ .Jz :: cs) 0 = some 0 := by
        rw [balCheckPartial_append, hbb]
        simpa using hbal
      have hptrB : ptrAux body none = true := by
        refine ptrAux_prefix (.Jnz :: after) body none ?_
        rw [← heq]
        exact hptr
      have hptrLoop : ptrAux (body ++ .Jz :: cs) none = true :=
        ptrAux_glue .Jz rfl cs hptr body none hptrB
      have hoptLoop : optGo (body ++ .Jz :: cs) none = B ++ .Jz :: tail := by
        rw [optGo_append_nc .Jz rfl cs body none, hb2, ← e1]
      exact Exec.jzLoop hsm hz
        (IH (body ++ .Jz :: cs) none stp hoptLoop rfl accBound_none huLoop hbalLoop hptrLoop)

/-- The big-step run relation is deterministic: a code/state pair has at most
one result. -/
theorem exec_det {code : List BfIR} {st : St} {r : Res} (d : Exec code st r) :
    ∀ {r' : Res}, Exec code st r' → r = r' := by
  induction d with
  | nil st =>
    intro r' d'
    cases d'
    rfl
  | @addPtrOk x rest st r h hr IH =>
    intro r' d'
    cases d' with
    | addPtrOk h' hr' => exact IH hr'
    | addPtrOver h' => omega
  | @addPtrOver x rest st h =>
    intro r' d'
    cases d' with
    | addPtrOk h' hr' => omega
    | addPtrOver h' => rfl
  | @subPtrOk x rest st r h hr IH =>
    intro r' d'
    cases d' with
    | subPtrOk h' hr' => exact IH hr'
    | subPtrOver h' => omega
  | @subPtrOver x rest st h =>
    intro r' d'
    cases d' with
    | subPtrOk h' hr' => omega
    | subPtrOver h' => rfl
  | @addVal x rest st r hr IH =>
    intro r' d'
    cases d' with
    | addVal hr' => exact IH hr'
  | @subVal x rest st r hr IH =>
    intro r' d'
    cases d' with
    | subVal hr' => exact IH hr'
  | @getEof rest st r h hr IH =>
    intro r' d'
    cases d' with
    | getEof h' hr' => exact IH hr'
    | getOne h' hr' =>
      rw [h] at h'
      exact List.noConfusion h'
    | getErr h' =>
      rw [h] at h'
      exact List.noConfusion h'
  | @getOne b is rest st r h hr IH =>
    intro r' d'
    cases d' with
    | getEof h' hr' =>
      rw [h] at h'
      exact List.noConfusion h'
    | getOne h' hr' =>
      rw [h] at h'
      injection h' with e1 e2
      injection e1 with e1
      subst e1
      subst e2
      exact IH hr'
    | getErr h' =>
      rw [h] at h'
      injection h' with e1 e2
      exact InEv.noConfusion e1
  | @getErr is rest st h =>
    intro r' d'
    cases d' with
    | getEof h' hr' =>
      rw [h] at h'
      exact List.noConfusion h'
    | getOne h' hr' =>
      rw [h] at h'
      injection h' with e1 e2
      exact InEv.noConfusion e1
    | getErr h' => rfl
  | @putB rest st r h hr IH =>
    intro r' d'
    cases d' with
    | putB h' hr' => exact IH hr'
    | putErr h' => exact absurd h' h
  | @putErr rest st h =>
    intro r' d'
    cases d' with
    | putB h' hr' => exact absurd h h'
    | putErr h' => rfl
  | @jzSkip rest body after st r hs hz hr IH =>
    intro r' d'
    cases d' with
    | jzSkip hs' hz' hr' =>
      rw [hs] at hs'
      injection hs' with e
      injection e with e1 e2
      subst e2
      exact IH hr'
    | jzLoop hs' hz' hr' => exact absurd hz hz'
  | @jzLoop rest body after st r hs hz hr IH =>
    intro r' d'
    cases d' with
    | jzSkip hs' hz' hr' => exact absurd hz' hz
    | jzLoop hs' hz' hr' =>
      rw [hs] at hs'
      injection hs' with e
      injection e with e1 e2
      subst e1
      exact IH hr'

/-- The fuelled interpreter is sound for the big-step run relation: any result
it produces is a result of the relation. -/
theorem execF_sound : ∀ (f : Nat) (code : List BfIR) (st : St) (r : Res),
    execF f code st = some r → Exec code st r := by
  intro f
  induction f with
  | zero =>
    intro code st r h
    exact Option.noConfusion h
  | succ f IH =>
    intro code st r h
    cases code with
    | nil =>
      injection h with h
      subst h
      exact Exec.nil st
    | cons ins rest =>
      cases ins with
      | AddPtr x =>
        simp only [execF] at h
        by_cases hlt : st.ptr + x < MEMORY_SIZE
        · rw [if_pos hlt] at h
          exact Exec.addPtrOk hlt (IH rest _ r h)
        · rw [if_neg hlt] at h
          injection h with h
          subst h
          exact Exec.addPtrOver (by omega)
      | SubPtr x =>
        simp only [execF] at h
        by_cases hle : x ≤ st.ptr
        · rw [if_pos hle] at h
          exact Exec.subPtrOk hle (IH rest _ r h)
        · rw [if_neg hle] at h
          injection h with h
          subst h
          exact Exec.subPtrOver (by omega)
      | AddVal x =>
        simp only [execF] at h
        exact Exec.addVal (IH rest _ r h)
      | SubVal x =>
        simp only [execF] at h
        exact Exec.subVal (IH rest _ r h)
      | GetByte =>
        simp only [execF] at h
        cases hin : st.input with
        | nil =>
          rw [hin] at h
          exact Exec.getEof hin (IH rest st r h)
        | cons ev is =>
          cases ev with
          | byte b =>
            rw [hin] at h
            exact Exec.getOne hin (IH rest _ r h)
          | fail =>
            rw [hin] at h
            injection h with h
            subst h
            exact Exec.getErr hin
      | PutByte =>
        simp only [execF] at h
        by_cases hoc : st.outcap.head? = some OutEv.fail
        · rw [if_pos hoc] at h
          injection h with h
          subst h
          exact Exec.putErr hoc
        · rw [if_neg hoc] at h
          exact Exec.putB hoc (IH rest _ r h)
      | Jz =>
        simp only [execF] at h
        cases hsm : splitMatch rest 0 with
        | none =>
          rw [hsm] at h
          exact Option.noConfusion h
        | some p =>
          obtain ⟨body, after⟩ := p
          rw [hsm] at h
          have h2 : (if getCell st = 0 then execF f after st
              else execF f (body ++ BfIR.Jz :: rest) st) = some r := h
          by_cases hz : getCell st = 0
          · rw [if_pos hz] at h2
            exact Exec.jzSkip hsm hz (IH after st r h2)
          · rw [if_neg hz] at h2
            exact Exec.jzLoop hsm hz (IH (body ++ .Jz :: rest) st r h2)
      | Jnz =>
        simp only [execF] at h
        exact Option.noConfusion h

set_option maxRecDepth 10000 in
/-- C1 counterexample: the optimizer is not observationally transparent on all
programs.  The 256-character program `<<<...<` compiles to 256 unit `SubPtr`
instructions, whose run from the initial state faults with a pointer overflow
at the very first step; the optimizer folds them into the single instruction
`SubPtr (256 % 256) = SubPtr 0`, a no-op, so the optimized run succeeds. -/
theorem optimize_not_transparent_cex :
    compile cexSrc = .ok cexCode ∧
    Exec cexCode (initSt [] []) (.overflow []) ∧
    ¬ Exec (optimize cexCode) (initSt [] []) (.overflow []) := by
  refine ⟨rfl, execF_sound 1 cexCode (initSt [] []) (.overflow []) rfl, ?_⟩
  intro hbad
  have hok : Exec (optimize cexCode) (initSt [] []) (.ok (initSt [] [])) :=
    execF_sound 2 (optimize cexCode) (initSt [] []) (.ok (initSt [] [])) rfl
  exact Res.noConfusion (exec_det hok hbad)

/-- C1 (amended): for every source program whose compiled IR moves the data
pointer by less than 256 in each maximal run of identical pointer-movement
instructions, running the optimized IR from any initial input and any output
capability (including capabilities whose writes fail) is observationally
equivalent to running the unoptimized IR: the same results (final state,
output bytes and success/failure outcome) are reachable.  The restriction is
necessary: `optimize` folds counts with 8-bit wrapping (`u8::wrapping_add`),
so a pointer run summing to a multiple of 256 that faults unoptimized becomes
a no-op, as `optimize_not_transparent_cex` shows. -/
theorem optimize_transparent_of_bounded_ptr_runs
    (src : String) (code : List BfIR) (inp : List InEv) (oc : List OutEv) (r : Res)
    (hc : compile src = .ok code) (hp : ptrRunsOK code = true) :
    Exec code (initSt inp oc) r ↔ Exec (optimize code) (initSt inp oc) r := by
  obtain ⟨hbal, hu⟩ := compile_ok_inv src code hc
  constructor
  · intro d
    exact exec_fold d none (initSt inp oc) rfl accBound_none hu hbal hp
  · intro d
    exact exec_unfold d code none (initSt inp oc) rfl rfl accBound_none hu hbal hp

/-- The amended transparency theorem instantiated at the concrete loop program
`+[-].` (no pointer movement at all, so every pointer run is trivially
bounded), against an output capability whose first write fails. -/
theorem optimize_transparent_witness :
    Exec codeWitLoop (initSt [] [OutEv.fail]) (.overflow []) ↔
      Exec (optimize codeWitLoop) (initSt [] [OutEv.fail]) (.overflow []) :=
  optimize_transparent_of_bounded_ptr_runs srcWitLoop codeWitLoop [] [OutEv.fail] (.overflow [])
    (by rfl) (by rfl)
